import Mathlib

/-!
# Verification of the PSK/PSA export core

A shallow embedding of the export core of `io_scene_psk_psa`:

* the binary writer `export_psk` (`src/io_scene_psk_psa/psk/exporter.py`),
* the bone selector `get_export_bone_names` and the bone transformer
  `convert_blender_bones_to_psx_bones` (`src/io_scene_psk_psa/shared/helpers.py`).

Modelling conventions:

* Machine integers are `Nat` with explicit `% 2 ^ w` where the source's ctypes
  fields truncate on assignment; float fields whose numeric value is never
  inspected by this code (UVs, packed coordinates) are carried as their raw
  32-bit patterns (`Nat`).
* Geometry used by the transformer is exact rational arithmetic (`ℚ`):
  the source computes with floats, whose rounding is outside the scope of the
  formalisation, while the algebraic structure of the computation is kept.
* Python exceptions become `Except String`; the worklist loop of the selector
  is written with explicit fuel and `Option`, together with a proof that the
  chosen fuel suffices on well-formed hierarchies.
* The record layouts of `psk/data.py` and the axis-remap table of
  `shared/data.py` are not among the given sources; definitions derived from
  the specification text instead of source code say so in their doc comment.
-/

namespace PskPsa

/-! ## Byte-level encoders (little-endian, no padding between fields) -/

/-- Two little-endian bytes of a 16-bit value. -/
def u16le (n : Nat) : List Nat :=
  [n % 256, n / 256 % 256]

/-- Four little-endian bytes of a 32-bit value. -/
def u32le (n : Nat) : List Nat :=
  [n % 256, n / 256 % 256, n / 65536 % 256, n / 16777216 % 256]

/-- A string laid out in a fixed-width `width`-byte field, NUL-padded,
as a ctypes `c_char * width` field stores it. -/
def fixedStrBytes (width : Nat) (s : String) : List Nat :=
  (s.toList.map Char.toNat).take width ++
    List.replicate (width - ((s.toList.map Char.toNat).take width).length) 0

theorem length_u16le (n : Nat) : (u16le n).length = 2 := rfl

theorem length_u32le (n : Nat) : (u32le n).length = 4 := rfl

theorem length_fixedStrBytes (width : Nat) (s : String) :
    (fixedStrBytes width s).length = width := by
  simp only [fixedStrBytes, List.length_append, List.length_replicate,
    List.length_take, List.length_map]
  omega

/-! ## The wire records

`psk/data.py` is not among the given sources; the record layouts below are
modelled from the specification (§3 "Section", §6 "Element record layouts"):
fixed-size little-endian records with no variable-length fields, names in
fixed-width NUL-padded fields, and format-mandated padding up to each legacy
record size. Numeric fields that are 32-bit floats on the wire are carried
as their raw bit patterns, since this code never computes with their values.
-/

/-- A 3-float point record (`Vector3`), 12 bytes on the wire.
Modelled from the spec: three 32-bit floats, carried as bit patterns. -/
structure PskVector3 where
  x : Nat
  y : Nat
  z : Nat
deriving DecidableEq, Repr

/-- The upstream ("wide") wedge record of the `Psk` container: point index,
UV (bit patterns) and material index, before re-encoding for the file. -/
structure PskWedge where
  point_index : Nat
  u : Nat
  v : Nat
  material_index : Nat
deriving DecidableEq, Repr

/-- The 16-bit-index wedge record written to the `VTXW0000` section.
Modelled from the spec: `point_index:uint16` (narrowed from a wider upstream
index), `u:float32`, `v:float32`, `material_index:uint8`, plus
format-mandated padding to the 16-byte legacy record size. -/
structure Wedge16 where
  point_index : Nat
  u : Nat
  v : Nat
  material_index : Nat
deriving DecidableEq, Repr

/-- Triangle record. Modelled from the spec: a fixed-size legacy record
(three 16-bit wedge indices, material and aux-material bytes, 32-bit
smoothing-group mask; 12 bytes), carried unchanged from upstream. -/
structure PskFace where
  wedge_index_1 : Nat
  wedge_index_2 : Nat
  wedge_index_3 : Nat
  material_index : Nat
  aux_material_index : Nat
  smoothing_groups : Nat
deriving DecidableEq, Repr

/-- Material record. Modelled from the spec: a 64-byte NUL-padded name
followed by six 32-bit integer fields (88 bytes), carried unchanged. -/
structure PskMaterial where
  name : String
  texture_index : Nat
  poly_flags : Nat
  aux_material_index : Nat
  aux_flags : Nat
  lod_bias : Nat
  lod_style : Nat
deriving DecidableEq, Repr

/-- Bone record of the `REFSKELT` section. Modelled from the spec:
`name:char[64]`, `flags:int32`, `children_count:int32`, `parent_index:int32`,
rotation quaternion written in `x,y,z,w` order, location `Vector3`, plus the
legacy length and size fields that pad the record to its fixed 120-byte size.
Float fields are carried as bit patterns. -/
structure PskBoneRec where
  name : String
  flags : Nat
  children_count : Nat
  parent_index : Nat
  rot_x : Nat
  rot_y : Nat
  rot_z : Nat
  rot_w : Nat
  loc_x : Nat
  loc_y : Nat
  loc_z : Nat
  length : Nat
  size_x : Nat
  size_y : Nat
  size_z : Nat
deriving DecidableEq, Repr

/-- Vertex-to-bone influence record. Modelled from the spec: a fixed-size
record (weight float, bone index, point index; 12 bytes), carried unchanged. -/
structure PskWeight where
  weight : Nat
  bone_index : Nat
  point_index : Nat
deriving DecidableEq, Repr

/-- The `Psk` container consumed by the writer (`psk.points`, `psk.wedges`,
`psk.faces`, `psk.materials`, `psk.bones`, `psk.weights`). -/
structure Psk where
  points : List PskVector3
  wedges : List PskWedge
  faces : List PskFace
  materials : List PskMaterial
  bones : List PskBoneRec
  weights : List PskWeight
deriving DecidableEq, Repr

def encodeVector3 (v : PskVector3) : List Nat :=
  u32le v.x ++ u32le v.y ++ u32le v.z

def encodeWedge16 (w : Wedge16) : List Nat :=
  u16le w.point_index ++ u16le 0 ++ u32le w.u ++ u32le w.v ++
    [w.material_index % 256] ++ [0] ++ u16le 0

def encodeFace (f : PskFace) : List Nat :=
  u16le f.wedge_index_1 ++ u16le f.wedge_index_2 ++ u16le f.wedge_index_3 ++
    [f.material_index % 256] ++ [f.aux_material_index % 256] ++
    u32le f.smoothing_groups

def encodeMaterial (m : PskMaterial) : List Nat :=
  fixedStrBytes 64 m.name ++ u32le m.texture_index ++ u32le m.poly_flags ++
    u32le m.aux_material_index ++ u32le m.aux_flags ++ u32le m.lod_bias ++
    u32le m.lod_style

def encodeBoneRec (b : PskBoneRec) : List Nat :=
  fixedStrBytes 64 b.name ++ u32le b.flags ++ u32le b.children_count ++
    u32le b.parent_index ++ u32le b.rot_x ++ u32le b.rot_y ++ u32le b.rot_z ++
    u32le b.rot_w ++ u32le b.loc_x ++ u32le b.loc_y ++ u32le b.loc_z ++
    u32le b.length ++ u32le b.size_x ++ u32le b.size_y ++ u32le b.size_z

def encodeWeight (w : PskWeight) : List Nat :=
  u32le w.weight ++ u32le w.bone_index ++ u32le w.point_index

/-- `sizeof` of each record type, as the writer stores it in the section
header (`section.data_size = sizeof(data_type)`). -/
def sizeofVector3 : Nat := 12
def sizeofWedge16 : Nat := 16
def sizeofFace : Nat := 12
def sizeofMaterial : Nat := 88
def sizeofBoneRec : Nat := 120
def sizeofWeight : Nat := 12

theorem length_encodeVector3 (v : PskVector3) :
    (encodeVector3 v).length = sizeofVector3 := rfl

theorem length_encodeWedge16 (w : Wedge16) :
    (encodeWedge16 w).length = sizeofWedge16 := rfl

theorem length_encodeFace (f : PskFace) :
    (encodeFace f).length = sizeofFace := rfl

theorem length_encodeMaterial (m : PskMaterial) :
    (encodeMaterial m).length = sizeofMaterial := by
  simp [encodeMaterial, sizeofMaterial, u32le, length_fixedStrBytes]

theorem length_encodeBoneRec (b : PskBoneRec) :
    (encodeBoneRec b).length = sizeofBoneRec := by
  simp [encodeBoneRec, sizeofBoneRec, u32le, length_fixedStrBytes]

theorem length_encodeWeight (w : PskWeight) :
    (encodeWeight w).length = sizeofWeight := rfl

/-! ## Sections and the writer (`psk/exporter.py`) -/

/-- `_write_section` (exporter.py lines 18-27): a 28-byte header — the name in
a fixed 20-byte field, 4-byte element size, 4-byte element count — followed by
the raw concatenation of the encoded elements. The `ACTRHEAD` call passes no
data type and no data, so its header carries `data_size = 0`, `data_count = 0`
and an empty payload. -/
def write_section (name : String) (data_size : Nat) (data : List (List Nat)) :
    List Nat :=
  (fixedStrBytes 20 name ++ u32le data_size ++ u32le data.length) ++ data.flatten

def MAX_WEDGE_COUNT : Nat := 65536
def MAX_POINT_COUNT : Nat := 4294967296
def MAX_BONE_COUNT : Nat := 256
def MAX_MATERIAL_COUNT : Nat := 256

/-- The wedge re-encoding loop of `export_psk` (exporter.py lines 46-53):
each field of the wide wedge is assigned onto the ctypes `Wedge16` record;
the assignment to the `c_uint16` field `point_index` (and the `c_uint8`
material index) truncates to the field width. -/
def toWedge16 (w : PskWedge) : Wedge16 :=
  { point_index := w.point_index % 65536
    u := w.u
    v := w.v
    material_index := w.material_index % 256 }

/-- The byte sequence `export_psk` writes on the success path
(exporter.py lines 42-59): seven sections in fixed order. -/
def pskFileBytes (psk : Psk) : List Nat :=
  write_section "ACTRHEAD" 0 [] ++
  write_section "PNTS0000" sizeofVector3 (psk.points.map encodeVector3) ++
  write_section "VTXW0000" sizeofWedge16
    (psk.wedges.map (fun w => encodeWedge16 (toWedge16 w))) ++
  write_section "FACE0000" sizeofFace (psk.faces.map encodeFace) ++
  write_section "MATT0000" sizeofMaterial (psk.materials.map encodeMaterial) ++
  write_section "REFSKELT" sizeofBoneRec (psk.bones.map encodeBoneRec) ++
  write_section "RAWWEIGHTS" sizeofWeight (psk.weights.map encodeWeight)

/-- `export_psk` (exporter.py lines 30-59). The five capacity checks run
before the output file is opened; a raised `RuntimeError` is modelled as
`Except.error` with the message of the corresponding `raise`, and the bytes
written on success as the `Except.ok` value. -/
def export_psk (psk : Psk) : Except String (List Nat) :=
  if psk.wedges.length > MAX_WEDGE_COUNT then
    .error ("Number of wedges (" ++ toString psk.wedges.length ++
      ") exceeds limit of " ++ toString MAX_WEDGE_COUNT)
  else if psk.points.length > MAX_POINT_COUNT then
    .error ("Numbers of vertices (" ++ toString psk.points.length ++
      ") exceeds limit of " ++ toString MAX_POINT_COUNT)
  else if psk.materials.length > MAX_MATERIAL_COUNT then
    .error ("Number of materials (" ++ toString psk.materials.length ++
      ") exceeds limit of " ++ toString MAX_MATERIAL_COUNT)
  else if psk.bones.length > MAX_BONE_COUNT then
    .error ("Number of bones (" ++ toString psk.bones.length ++
      ") exceeds limit of " ++ toString MAX_BONE_COUNT)
  else if psk.bones.length = 0 then
    .error "At least one bone must be marked for export"
  else
    .ok (pskFileBytes psk)

/-- `export_psk` together with the file at the destination path: the checks
run before `open(path, 'wb')`, so on a capacity error the previous content
`prev` of the path is untouched, while on success the file is truncated and
holds exactly the written bytes. -/
def export_psk_fs (psk : Psk) (prev : Option (List Nat)) :
    Option (List Nat) × Option String :=
  match export_psk psk with
  | .error e => (prev, some e)
  | .ok bs => (some bs, none)

/-! ## Writer theorems -/

/-- The disjunction of the five capacity conditions checked by `export_psk`. -/
def capacityExceeded (psk : Psk) : Prop :=
  psk.wedges.length > MAX_WEDGE_COUNT ∨ psk.points.length > MAX_POINT_COUNT ∨
  psk.materials.length > MAX_MATERIAL_COUNT ∨ psk.bones.length > MAX_BONE_COUNT ∨
  psk.bones.length = 0

instance (psk : Psk) : Decidable (capacityExceeded psk) := by
  unfold capacityExceeded; infer_instance

theorem export_psk_ok_iff (psk : Psk) :
    export_psk psk = .ok (pskFileBytes psk) ↔ ¬ capacityExceeded psk := by
  unfold export_psk capacityExceeded
  split_ifs with h1 h2 h3 h4 h5 <;> simp_all

theorem export_psk_error_of_exceeded (psk : Psk) (h : capacityExceeded psk) :
    ∃ e, export_psk psk = .error e := by
  unfold export_psk
  split_ifs with h1 h2 h3 h4 h5
  · exact ⟨_, rfl⟩
  · exact ⟨_, rfl⟩
  · exact ⟨_, rfl⟩
  · exact ⟨_, rfl⟩
  · exact ⟨_, rfl⟩
  · exact absurd h (by unfold capacityExceeded; tauto)

theorem flatten_length_of_const (sz : Nat) :
    ∀ data : List (List Nat), (∀ x ∈ data, x.length = sz) →
      data.flatten.length = sz * data.length
  | [], _ => by simp
  | d :: ds, h => by
    have hd : d.length = sz := h d (List.mem_cons_self _ _)
    have hds := flatten_length_of_const sz ds
      (fun x hx => h x (List.mem_cons_of_mem _ hx))
    simp [List.flatten_cons, hd, hds]
    ring

theorem length_write_section (name : String) (sz : Nat) (data : List (List Nat))
    (h : ∀ x ∈ data, x.length = sz) :
    (write_section name sz data).length = 28 + sz * data.length := by
  simp [write_section, length_fixedStrBytes, u32le,
    flatten_length_of_const sz data h]
  ring

/-- C4: `export_psk` raises a capacity error — leaving the previous content of
the destination path untouched, since the checks run before the file is
opened — exactly when wedge count > 65536, point count > 4294967296,
material count > 256, bone count > 256, or bone count = 0; when none of the
conditions hold no error is raised and the file is written. -/
theorem export_psk_capacity_gate (psk : Psk) (prev : Option (List Nat)) :
    ((∃ e, export_psk_fs psk prev = (prev, some e)) ↔
      (psk.wedges.length > MAX_WEDGE_COUNT ∨
       psk.points.length > MAX_POINT_COUNT ∨
       psk.materials.length > MAX_MATERIAL_COUNT ∨
       psk.bones.length > MAX_BONE_COUNT ∨
       psk.bones.length = 0)) ∧
    (¬ (psk.wedges.length > MAX_WEDGE_COUNT ∨
        psk.points.length > MAX_POINT_COUNT ∨
        psk.materials.length > MAX_MATERIAL_COUNT ∨
        psk.bones.length > MAX_BONE_COUNT ∨
        psk.bones.length = 0) →
      export_psk_fs psk prev = (some (pskFileBytes psk), none)) := by
  have hiff := export_psk_ok_iff psk
  constructor
  · constructor
    · rintro ⟨e, he⟩
      by_contra hno
      have hno2 : ¬ capacityExceeded psk := hno
      simp [export_psk_fs, hiff.mpr hno2] at he
    · intro hcond
      obtain ⟨e, he⟩ := export_psk_error_of_exceeded psk hcond
      exact ⟨e, by simp [export_psk_fs, he]⟩
  · intro hno
    have hno2 : ¬ capacityExceeded psk := hno
    simp [export_psk_fs, hiff.mpr hno2]

/-- A psk container with no bones, violating the bone-count floor. -/
def pskNoBones : Psk :=
  { points := [], wedges := [], faces := [], materials := [], bones := []
    weights := [] }

theorem export_psk_capacity_gate_witness :
    ∃ e, export_psk_fs pskNoBones (some [7]) = (some [7], some e) :=
  (export_psk_capacity_gate pskNoBones (some [7])).1.mpr
    (Or.inr (Or.inr (Or.inr (Or.inr rfl))))

/-- C5: on success the file is exactly seven sections in the fixed order
`ACTRHEAD`, `PNTS0000`, `VTXW0000`, `FACE0000`, `MATT0000`, `REFSKELT`,
`RAWWEIGHTS`, each a 28-byte header followed by `data_size * data_count`
payload bytes with no padding; `ACTRHEAD` has `data_size = 0` and
`data_count = 0`, and the total length is the sum of
`28 + data_size * data_count` over the seven sections. -/
theorem export_psk_section_layout (psk : Psk) (bs : List Nat)
    (h : export_psk psk = .ok bs) :
    bs = write_section "ACTRHEAD" 0 [] ++
         write_section "PNTS0000" sizeofVector3 (psk.points.map encodeVector3) ++
         write_section "VTXW0000" sizeofWedge16
           (psk.wedges.map (fun w => encodeWedge16 (toWedge16 w))) ++
         write_section "FACE0000" sizeofFace (psk.faces.map encodeFace) ++
         write_section "MATT0000" sizeofMaterial
           (psk.materials.map encodeMaterial) ++
         write_section "REFSKELT" sizeofBoneRec (psk.bones.map encodeBoneRec) ++
         write_section "RAWWEIGHTS" sizeofWeight
           (psk.weights.map encodeWeight) ∧
    (write_section "ACTRHEAD" 0 []).length = 28 + 0 * 0 ∧
    bs.length =
      (28 + 0 * 0) + (28 + sizeofVector3 * psk.points.length) +
      (28 + sizeofWedge16 * psk.wedges.length) +
      (28 + sizeofFace * psk.faces.length) +
      (28 + sizeofMaterial * psk.materials.length) +
      (28 + sizeofBoneRec * psk.bones.length) +
      (28 + sizeofWeight * psk.weights.length) := by
  have hbs : bs = pskFileBytes psk := by
    unfold export_psk at h
    split_ifs at h
    exact (Except.ok.injEq _ _ ▸ h.symm :)
  have l1 := length_write_section "ACTRHEAD" 0 [] (by simp)
  have l2 := length_write_section "PNTS0000" sizeofVector3
    (psk.points.map encodeVector3)
    (by intro x hx; obtain ⟨v, _, rfl⟩ := List.mem_map.mp hx
        exact length_encodeVector3 v)
  have l3 := length_write_section "VTXW0000" sizeofWedge16
    (psk.wedges.map (fun w => encodeWedge16 (toWedge16 w)))
    (by intro x hx; obtain ⟨v, _, rfl⟩ := List.mem_map.mp hx
        exact length_encodeWedge16 _)
  have l4 := length_write_section "FACE0000" sizeofFace (psk.faces.map encodeFace)
    (by intro x hx; obtain ⟨v, _, rfl⟩ := List.mem_map.mp hx
        exact length_encodeFace v)
  have l5 := length_write_section "MATT0000" sizeofMaterial
    (psk.materials.map encodeMaterial)
    (by intro x hx; obtain ⟨v, _, rfl⟩ := List.mem_map.mp hx
        exact length_encodeMaterial v)
  have l6 := length_write_section "REFSKELT" sizeofBoneRec
    (psk.bones.map encodeBoneRec)
    (by intro x hx; obtain ⟨v, _, rfl⟩ := List.mem_map.mp hx
        exact length_encodeBoneRec v)
  have l7 := length_write_section "RAWWEIGHTS" sizeofWeight
    (psk.weights.map encodeWeight)
    (by intro x hx; obtain ⟨v, _, rfl⟩ := List.mem_map.mp hx
        exact length_encodeWeight v)
  refine ⟨hbs, by simpa using l1, ?_⟩
  subst hbs
  unfold pskFileBytes
  simp only [List.length_append, l1, l2, l3, l4, l5, l6, l7,
    List.length_map]
  ring

/-- A minimal valid container: 1 bone, 1 point, 1 wedge, 1 face, 1 material,
1 weight. -/
def pskMin : Psk :=
  { points := [⟨0, 0, 0⟩]
    wedges := [⟨0, 0, 0, 0⟩]
    faces := [⟨0, 0, 0, 0, 0, 0⟩]
    materials := [⟨"MaterialName", 0, 0, 0, 0, 0, 0⟩]
    bones := [⟨"root", 0, 0, 0, 0, 0, 0, 0, 0, 0, 0, 0, 0, 0, 0⟩]
    weights := [⟨0, 0, 0⟩] }

theorem export_psk_section_layout_witness :
    export_psk pskMin = .ok (pskFileBytes pskMin) ∧
    (pskFileBytes pskMin).length =
      (28 + 0 * 0) + (28 + sizeofVector3 * pskMin.points.length) +
      (28 + sizeofWedge16 * pskMin.wedges.length) +
      (28 + sizeofFace * pskMin.faces.length) +
      (28 + sizeofMaterial * pskMin.materials.length) +
      (28 + sizeofBoneRec * pskMin.bones.length) +
      (28 + sizeofWeight * pskMin.weights.length) :=
  ⟨rfl, (export_psk_section_layout pskMin (pskFileBytes pskMin) rfl).2.2⟩

/-- An internally consistent container that passes every capacity check while
holding a wedge whose `point_index` does not fit 16 bits: 70001 points
(allowed, since the ceiling is 4294967296) and one wedge referencing point
70000. -/
def pskBigPointIndex : Psk :=
  { points := List.replicate 70001 ⟨0, 0, 0⟩
    wedges := [⟨70000, 0, 0, 0⟩]
    faces := [⟨0, 0, 0, 0, 0, 0⟩]
    materials := [⟨"MaterialName", 0, 0, 0, 0, 0, 0⟩]
    bones := [⟨"root", 0, 0, 0, 0, 0, 0, 0, 0, 0, 0, 0, 0, 0, 0⟩]
    weights := [⟨0, 0, 0⟩] }

/-- C3 counterexample: `pskBigPointIndex` passes all of `export_psk`'s
capacity checks (the export succeeds), its single wedge's `point_index`
(70000) is in range for the point array, yet the re-encoded `Wedge16` record
carries `point_index = 4464 = 70000 % 65536` — the value is not written
unchanged, so the wedge-count ceiling does not enforce the 16-bit fit. -/
theorem wedge16_truncation_counterexample :
    export_psk pskBigPointIndex = .ok (pskFileBytes pskBigPointIndex) ∧
    pskBigPointIndex.wedges = [⟨70000, 0, 0, 0⟩] ∧
    70000 < pskBigPointIndex.points.length ∧
    (toWedge16 ⟨70000, 0, 0, 0⟩).point_index = 4464 ∧
    (toWedge16 ⟨70000, 0, 0, 0⟩).point_index ≠ 70000 := by
  have hpts : pskBigPointIndex.points.length = 70001 := by
    rw [show pskBigPointIndex.points = List.replicate 70001 ⟨0, 0, 0⟩ from rfl,
      List.length_replicate]
  refine ⟨?_, rfl, by rw [hpts]; norm_num, by decide, by decide⟩
  rw [export_psk_ok_iff]
  unfold capacityExceeded
  rw [hpts]
  norm_num [pskBigPointIndex, MAX_WEDGE_COUNT, MAX_POINT_COUNT,
    MAX_MATERIAL_COUNT, MAX_BONE_COUNT]

/-- C3 amended: the re-encoding into the 16-bit wedge record reduces each
`point_index` modulo 2^16; the value is written unchanged exactly when it
already fits 16 bits. The capacity checks do not guarantee the fit, since the
point-count ceiling (2^32) admits point indices above 65535 (see the
counterexample). -/
theorem wedge16_point_index_mod (w : PskWedge) :
    (toWedge16 w).point_index = w.point_index % 65536 ∧
    ((toWedge16 w).point_index = w.point_index ↔ w.point_index < 65536) := by
  refine ⟨rfl, ?_, ?_⟩
  · intro h
    have : w.point_index % 65536 < 65536 := Nat.mod_lt _ (by decide)
    simpa [toWedge16, h] using h ▸ this
  · intro h
    simp [toWedge16, Nat.mod_eq_of_lt h]

/-! ## The bone selector (`shared/helpers.py`, `get_export_bone_names`)

A source bone carries its name, its parent and its bone-collection
memberships. Blender bone names are unique within an armature and the source
resolves the parent reference through `bone_names.index(bone.parent.name)`,
i.e. to the parent's position in the bone list; the embedding therefore
represents the parent reference directly as that index (`parentIdx`), and a
bone's collection memberships as the indices those collections have in
`armature.collections_all` (the source computes them with
`bone_collections.index(x)`). -/
structure SBone where
  name : String
  parentIdx : Option Nat
  collections : List Nat
deriving DecidableEq, Repr

/-- The parent link of the bone at index `i`, `none` when the bone is a root
or the index is out of range (the source never indexes out of range here). -/
def parentOf (bones : List SBone) (i : Nat) : Option Nat :=
  match bones[i]? with
  | some b => b.parentIdx
  | none => none

/-- The name of the bone at index `i` (`bones[i].name`). -/
def nameAt (bones : List SBone) (i : Nat) : String :=
  match bones[i]? with
  | some b => b.name
  | none => ""

/-- Well-formedness of a hierarchy as Blender maintains it: every bone's
parent appears strictly earlier in the bone list (so the parent relation is
acyclic and a parent always precedes its children). -/
def parentsPrecedeAux : Nat → List SBone → Bool
  | _, [] => true
  | i, b :: rest =>
    (match b.parentIdx with
     | none => true
     | some p => decide (p < i)) && parentsPrecedeAux (i + 1) rest

def parentsPrecede (bones : List SBone) : Bool :=
  parentsPrecedeAux 0 bones

theorem parentsPrecedeAux_spec :
    ∀ (l : List SBone) (k : Nat), parentsPrecedeAux k l = true →
      ∀ j b p, l[j]? = some b → b.parentIdx = some p → p < k + j
  | [], _, _, j, _, _, h, _ => by simp at h
  | b0 :: rest, k, hall, j, b, p, hb, hp => by
    simp only [parentsPrecedeAux, Bool.and_eq_true] at hall
    match j with
    | 0 =>
      simp only [List.getElem?_cons_zero, Option.some.injEq] at hb
      subst hb
      rw [hp] at hall
      simpa using hall.1
    | j' + 1 =>
      simp only [List.getElem?_cons_succ] at hb
      have := parentsPrecedeAux_spec rest (k + 1) hall.2 j' b p hb hp
      omega

theorem parentsPrecede_lt (bones : List SBone) (h : parentsPrecede bones = true)
    {i p : Nat} (hp : parentOf bones i = some p) : p < i := by
  unfold parentOf at hp
  match hb : bones[i]? with
  | none => rw [hb] at hp; exact absurd hp (by simp)
  | some b =>
    rw [hb] at hp
    simpa using parentsPrecedeAux_spec bones 0 h i b p hb hp

theorem parentOf_lt_length (bones : List SBone) {i p : Nat}
    (hp : parentOf bones i = some p) : i < bones.length := by
  unfold parentOf at hp
  match hb : bones[i]? with
  | none => rw [hb] at hp; exact absurd hp (by simp)
  | some b => exact (List.getElem?_eq_some_iff.mp hb).choose

/-- The seed condition of the filter loop (helpers.py lines 105-107): a bone
is pushed when the filter mode is `ALL`, or it belongs to no collection while
the synthetic `-1` bucket is selected, or one of its collection indices is
among the selected ones. Any other value of `bone_filter_mode` simply fails
the first comparison. -/
def isSeedBone (bone_filter_mode : String) (bone_collection_indices : List Int)
    (b : SBone) : Bool :=
  (bone_filter_mode == "ALL") ||
  (b.collections.isEmpty && bone_collection_indices.contains (-1)) ||
  b.collections.any (fun c => bone_collection_indices.contains (c : Int))

/-- Indices of the seed bones, in hierarchy order (the `enumerate` loop of
helpers.py lines 100-108). -/
def seedIdxAux (mode : String) (sel : List Int) : Nat → List SBone → List Nat
  | _, [] => []
  | i, b :: rest =>
    if isSeedBone mode sel b then i :: seedIdxAux mode sel (i + 1) rest
    else seedIdxAux mode sel (i + 1) rest

def seedIndices (bones : List SBone) (mode : String) (sel : List Int) :
    List Nat :=
  seedIdxAux mode sel 0 bones

/-- The initial worklist: the seeds are appended in hierarchy order and the
loop pops from the end of the Python list, so the head of this (reversed)
list is the next bone to pop. Each entry carries the instigator bone index
recorded for diagnostics. -/
def seedStack (bones : List SBone) (mode : String) (sel : List Int) :
    List (Nat × Option Nat) :=
  ((seedIndices bones mode sel).map (fun i => (i, (none : Option Nat)))).reverse

/-- Keys of the visited-bones dictionary `bone_indices`. -/
def dKeys (d : List (Nat × Option Nat)) : List Nat := d.map (·.1)

/-- `bone_indices[bone_index] = instigator_bone_index`: a Python dict keeps
the original position of an existing key and overwrites its value, otherwise
appends the new pair. -/
def dictInsert (d : List (Nat × Option Nat)) (i : Nat) (v : Option Nat) :
    List (Nat × Option Nat) :=
  if (dKeys d).contains i then
    d.map (fun kv => if kv.1 = i then (i, v) else kv)
  else
    d ++ [(i, v)]

theorem dKeys_dictInsert (d : List (Nat × Option Nat)) (i : Nat)
    (v : Option Nat) :
    dKeys (dictInsert d i v) =
      if (dKeys d).contains i then dKeys d else dKeys d ++ [i] := by
  unfold dictInsert
  split_ifs with h
  · simp only [dKeys, List.map_map]
    refine congrFun (congrArg _ (funext fun kv => ?_)) d
    by_cases hkv : kv.1 = i <;> simp [hkv]
  · simp [dKeys]

theorem mem_dKeys_dictInsert (d : List (Nat × Option Nat)) (i x : Nat)
    (v : Option Nat) :
    x ∈ dKeys (dictInsert d i v) ↔ x ∈ dKeys d ∨ x = i := by
  rw [dKeys_dictInsert]
  split_ifs with h
  · rw [List.elem_iff] at h
    constructor
    · exact Or.inl
    · rintro (hx | rfl)
      · exact hx
      · exact h
  · simp

theorem nodup_dKeys_dictInsert (d : List (Nat × Option Nat)) (i : Nat)
    (v : Option Nat) (h : (dKeys d).Nodup) :
    (dKeys (dictInsert d i v)).Nodup := by
  rw [dKeys_dictInsert]
  split_ifs with hc
  · exact h
  · refine List.Nodup.append h (List.nodup_singleton i) ?_
    intro a ha hb
    simp only [List.mem_singleton] at hb
    subst hb
    exact absurd (List.elem_iff.mpr ha) (by simpa using hc)

/-- One step of the ancestor-closure worklist (helpers.py lines 113-120):
pop a bone, push its parent when the parent is not yet in the dictionary
(recording the popped bone as instigator), then record the popped bone.
Python's `while` loop is written with explicit fuel; `none` means the fuel
ran out, which `worklist_fuel_sufficient` rules out for well-formed
hierarchies. -/
def worklist (bones : List SBone) :
    Nat → List (Nat × Option Nat) → List (Nat × Option Nat) →
      Option (List (Nat × Option Nat))
  | _, [], d => some d
  | 0, _ :: _, _ => none
  | fuel + 1, (i, inst) :: rest, d =>
    match parentOf bones i with
    | none => worklist bones fuel rest (dictInsert d i inst)
    | some p =>
      if (dKeys d).contains p then
        worklist bones fuel rest (dictInsert d i inst)
      else
        worklist bones fuel ((p, some i) :: rest) (dictInsert d i inst)

/-- Fuel bound: the sum of `index + 1` over the stack strictly decreases at
every step on a well-formed hierarchy. -/
def stackMeasure (st : List (Nat × Option Nat)) : Nat :=
  (st.map (fun x => x.1 + 1)).sum

/-- Insertion into a sorted list of bone indices. -/
def insertSorted (x : Nat) : List Nat → List Nat
  | [] => [x]
  | y :: ys => if x ≤ y then x :: y :: ys else y :: insertSorted x ys

/-- `bone_indices.sort(key=lambda x: x[0])` (helpers.py lines 122-124): the
pairs are ordered by bone index; every later use projects out the index or,
for the diagnostics-only instigator values, is console output that the
embedding omits, so the sort is taken on the projected keys. -/
def sortNat (l : List Nat) : List Nat :=
  l.foldr insertSorted []

/-- The multiple-roots failure (helpers.py lines 151-153): the raised error
reports the number of root bones in the export set and their names. The
instigator-chain console printout of lines 140-149 is diagnostics-only
output and not part of the returned error. -/
structure SelectError where
  rootCount : Nat
  rootNames : List String
deriving DecidableEq, Repr

/-- `get_export_bone_names` (helpers.py lines 77-155). The armature-object
type check of lines 88-89 concerns the host scene-graph object and is outside
the embedding, which receives the bone list directly. `none` is fuel
exhaustion of the worklist, impossible on well-formed hierarchies. -/
def get_export_bone_names (bones : List SBone) (bone_filter_mode : String)
    (bone_collection_indices : List Int) :
    Option (Except SelectError (List String)) :=
  let stack := seedStack bones bone_filter_mode bone_collection_indices
  match worklist bones (stackMeasure stack + 1) stack [] with
  | none => none
  | some d =>
    let sortedIdx := sortNat (dKeys d)
    let rootIdx := sortedIdx.filter (fun i => (parentOf bones i).isNone)
    some (if 1 < rootIdx.length then
      .error { rootCount := rootIdx.length
               rootNames := rootIdx.map (nameAt bones) }
    else
      .ok (sortedIdx.map (nameAt bones)))

/-! ### Characterisation of the worklist closure -/

/-- The declarative ancestor closure of the seed set: the least set of bone
indices containing every seed and closed under following parent links. -/
inductive InClosure (bones : List SBone) (mode : String) (sel : List Int) :
    Nat → Prop
  | seed (i : Nat) (b : SBone) : bones[i]? = some b →
      isSeedBone mode sel b = true → InClosure bones mode sel i
  | up (i p : Nat) : InClosure bones mode sel i →
      parentOf bones i = some p → InClosure bones mode sel p

/-- Any property closed under parent links that holds on the stack and the
dictionary holds on the final dictionary. -/
theorem worklist_keys_subset (bones : List SBone) (P : Nat → Prop)
    (hP : ∀ i p, P i → parentOf bones i = some p → P p) :
    ∀ (fuel : Nat) (st d d' : List (Nat × Option Nat)),
      worklist bones fuel st d = some d' →
      (∀ x ∈ dKeys st, P x) → (∀ x ∈ dKeys d, P x) →
      ∀ x ∈ dKeys d', P x := by
  intro fuel
  induction fuel with
  | zero =>
    intro st d d' h hst hd
    cases st with
    | nil => simp only [worklist, Option.some.injEq] at h; subst h; exact hd
    | cons top rest => simp [worklist] at h
  | succ f ih =>
    intro st d d' h hst hd
    cases st with
    | nil => simp only [worklist, Option.some.injEq] at h; subst h; exact hd
    | cons top rest =>
      obtain ⟨i, inst⟩ := top
      have hPi : P i := hst i (by simp [dKeys])
      have hrest : ∀ x ∈ dKeys rest, P x := by
        intro x hx; exact hst x (by simp [dKeys] at hx ⊢; exact Or.inr hx)
      have hd2 : ∀ x ∈ dKeys (dictInsert d i inst), P x := by
        intro x hx
        rcases (mem_dKeys_dictInsert d i x inst).mp hx with hx2 | rfl
        · exact hd x hx2
        · exact hPi
      cases hpar : parentOf bones i with
      | none =>
        simp only [worklist, hpar] at h
        exact ih rest (dictInsert d i inst) d' h hrest hd2
      | some p =>
        simp only [worklist, hpar] at h
        by_cases hc : (dKeys d).contains p
        · rw [if_pos hc] at h
          exact ih rest (dictInsert d i inst) d' h hrest hd2
        · rw [if_neg hc] at h
          refine ih ((p, some i) :: rest) (dictInsert d i inst) d' h ?_ hd2
          intro x hx
          simp only [dKeys, List.map_cons, List.mem_cons] at hx
          rcases hx with rfl | hx
          · exact hP i x hPi hpar
          · exact hrest x (by simpa [dKeys] using hx)

/-- The final dictionary contains every index that was on the stack or in the
dictionary, and is closed under parent links. -/
theorem worklist_complete (bones : List SBone) :
    ∀ (fuel : Nat) (st d d' : List (Nat × Option Nat)),
      worklist bones fuel st d = some d' →
      (∀ i p, i ∈ dKeys d → parentOf bones i = some p →
        p ∈ dKeys d ∨ p ∈ dKeys st) →
      (∀ x, (x ∈ dKeys d ∨ x ∈ dKeys st) → x ∈ dKeys d') ∧
      (∀ i p, i ∈ dKeys d' → parentOf bones i = some p → p ∈ dKeys d') := by
  intro fuel
  induction fuel with
  | zero =>
    intro st d d' h hinv
    cases st with
    | nil =>
      simp only [worklist, Option.some.injEq] at h
      subst h
      constructor
      · intro x hx
        rcases hx with hx | hx
        · exact hx
        · simp [dKeys] at hx
      · intro i p hi hp
        rcases hinv i p hi hp with h2 | h2
        · exact h2
        · simp [dKeys] at h2
    | cons top rest => simp [worklist] at h
  | succ f ih =>
    intro st d d' h hinv
    cases st with
    | nil =>
      simp only [worklist, Option.some.injEq] at h
      subst h
      constructor
      · intro x hx
        rcases hx with hx | hx
        · exact hx
        · simp [dKeys] at hx
      · intro i p hi hp
        rcases hinv i p hi hp with h2 | h2
        · exact h2
        · simp [dKeys] at h2
    | cons top rest =>
      obtain ⟨i, inst⟩ := top
      have hmemins : ∀ x, x ∈ dKeys (dictInsert d i inst) ↔
          x ∈ dKeys d ∨ x = i := fun x => mem_dKeys_dictInsert d i x inst
      cases hpar : parentOf bones i with
      | none =>
        simp only [worklist, hpar] at h
        have hinv2 : ∀ i2 p2, i2 ∈ dKeys (dictInsert d i inst) →
            parentOf bones i2 = some p2 →
            p2 ∈ dKeys (dictInsert d i inst) ∨ p2 ∈ dKeys rest := by
          intro i2 p2 hi2 hp2
          rcases (hmemins i2).mp hi2 with hi2d | rfl
          · rcases hinv i2 p2 hi2d hp2 with h2 | h2
            · exact Or.inl ((hmemins p2).mpr (Or.inl h2))
            · simp only [dKeys, List.map_cons, List.mem_cons] at h2
              rcases h2 with rfl | h2
              · exact Or.inl ((hmemins p2).mpr (Or.inr rfl))
              · exact Or.inr (by simpa [dKeys] using h2)
          · rw [hpar] at hp2; exact absurd hp2 (by simp)
        obtain ⟨hall, hclosed⟩ := ih rest (dictInsert d i inst) d' h hinv2
        refine ⟨?_, hclosed⟩
        intro x hx
        rcases hx with hx | hx
        · exact hall x (Or.inl ((hmemins x).mpr (Or.inl hx)))
        · simp only [dKeys, List.map_cons, List.mem_cons] at hx
          rcases hx with rfl | hx
          · exact hall x (Or.inl ((hmemins x).mpr (Or.inr rfl)))
          · exact hall x (Or.inr (by simpa [dKeys] using hx))
      | some p =>
        simp only [worklist, hpar] at h
        by_cases hc : (dKeys d).contains p
        · rw [if_pos hc] at h
          have hpd : p ∈ dKeys d := List.elem_iff.mp hc
          have hinv2 : ∀ i2 p2, i2 ∈ dKeys (dictInsert d i inst) →
              parentOf bones i2 = some p2 →
              p2 ∈ dKeys (dictInsert d i inst) ∨ p2 ∈ dKeys rest := by
            intro i2 p2 hi2 hp2
            rcases (hmemins i2).mp hi2 with hi2d | rfl
            · rcases hinv i2 p2 hi2d hp2 with h2 | h2
              · exact Or.inl ((hmemins p2).mpr (Or.inl h2))
              · simp only [dKeys, List.map_cons, List.mem_cons] at h2
                rcases h2 with rfl | h2
                · exact Or.inl ((hmemins p2).mpr (Or.inr rfl))
                · exact Or.inr (by simpa [dKeys] using h2)
            · rw [hpar] at hp2
              have hpp : p = p2 := by simpa using hp2
              subst hpp
              exact Or.inl ((hmemins p).mpr (Or.inl hpd))
          obtain ⟨hall, hclosed⟩ := ih rest (dictInsert d i inst) d' h hinv2
          refine ⟨?_, hclosed⟩
          intro x hx
          rcases hx with hx | hx
          · exact hall x (Or.inl ((hmemins x).mpr (Or.inl hx)))
          · simp only [dKeys, List.map_cons, List.mem_cons] at hx
            rcases hx with rfl | hx
            · exact hall x (Or.inl ((hmemins x).mpr (Or.inr rfl)))
            · exact hall x (Or.inr (by simpa [dKeys] using hx))
        · rw [if_neg hc] at h
          have hinv2 : ∀ i2 p2, i2 ∈ dKeys (dictInsert d i inst) →
              parentOf bones i2 = some p2 →
              p2 ∈ dKeys (dictInsert d i inst) ∨
                p2 ∈ dKeys ((p, some i) :: rest) := by
            intro i2 p2 hi2 hp2
            rcases (hmemins i2).mp hi2 with hi2d | rfl
            · rcases hinv i2 p2 hi2d hp2 with h2 | h2
              · exact Or.inl ((hmemins p2).mpr (Or.inl h2))
              · simp only [dKeys, List.map_cons, List.mem_cons] at h2
                rcases h2 with rfl | h2
                · exact Or.inl ((hmemins p2).mpr (Or.inr rfl))
                · exact Or.inr (List.mem_cons_of_mem _ h2)
            · rw [hpar] at hp2
              have hpp : p = p2 := by simpa using hp2
              subst hpp
              exact Or.inr (by simp [dKeys])
          obtain ⟨hall, hclosed⟩ :=
            ih ((p, some i) :: rest) (dictInsert d i inst) d' h hinv2
          refine ⟨?_, hclosed⟩
          intro x hx
          rcases hx with hx | hx
          · exact hall x (Or.inl ((hmemins x).mpr (Or.inl hx)))
          · simp only [dKeys, List.map_cons, List.mem_cons] at hx
            rcases hx with rfl | hx
            · exact hall x (Or.inl ((hmemins x).mpr (Or.inr rfl)))
            · exact hall x (Or.inr (List.mem_cons_of_mem _ hx))

/-- The worklist preserves key uniqueness of the dictionary. -/
theorem worklist_nodup (bones : List SBone) :
    ∀ (fuel : Nat) (st d d' : List (Nat × Option Nat)),
      worklist bones fuel st d = some d' →
      (dKeys d).Nodup → (dKeys d').Nodup := by
  intro fuel
  induction fuel with
  | zero =>
    intro st d d' h hnd
    cases st with
    | nil => simp only [worklist, Option.some.injEq] at h; subst h; exact hnd
    | cons top rest => simp [worklist] at h
  | succ f ih =>
    intro st d d' h hnd
    cases st with
    | nil => simp only [worklist, Option.some.injEq] at h; subst h; exact hnd
    | cons top rest =>
      obtain ⟨i, inst⟩ := top
      have hnd2 := nodup_dKeys_dictInsert d i inst hnd
      cases hpar : parentOf bones i with
      | none => simp only [worklist, hpar] at h; exact ih _ _ _ h hnd2
      | some p =>
        simp only [worklist, hpar] at h
        by_cases hc : (dKeys d).contains p
        · rw [if_pos hc] at h; exact ih _ _ _ h hnd2
        · rw [if_neg hc] at h; exact ih _ _ _ h hnd2

/-- On a well-formed hierarchy the fuel `stackMeasure + 1` suffices: popping
index `i` costs `i + 1` and pushes at most the parent, which costs `p + 1`
with `p < i`. -/
theorem worklist_isSome (bones : List SBone)
    (hwf : parentsPrecede bones = true) :
    ∀ (fuel : Nat) (st d : List (Nat × Option Nat)),
      stackMeasure st < fuel → (worklist bones fuel st d).isSome := by
  intro fuel
  induction fuel with
  | zero => intro st d h; exact absurd h (by omega)
  | succ f ih =>
    intro st d h
    cases st with
    | nil => simp [worklist]
    | cons top rest =>
      obtain ⟨i, inst⟩ := top
      have hm : stackMeasure ((i, inst) :: rest) =
          (i + 1) + stackMeasure rest := by
        simp [stackMeasure]
      cases hpar : parentOf bones i with
      | none =>
        simp only [worklist, hpar]
        exact ih rest (dictInsert d i inst) (by omega)
      | some p =>
        simp only [worklist, hpar]
        have hpi : p < i := parentsPrecede_lt bones hwf hpar
        by_cases hc : (dKeys d).contains p
        · rw [if_pos hc]
          exact ih rest (dictInsert d i inst) (by omega)
        · rw [if_neg hc]
          refine ih ((p, some i) :: rest) (dictInsert d i inst) ?_
          have : stackMeasure ((p, some i) :: rest) =
              (p + 1) + stackMeasure rest := by simp [stackMeasure]
          omega

/-- The ancestor chain of bone `s` (the bone itself and its ancestors),
computed with fuel; on a well-formed hierarchy fuel `s` suffices because
parent indices strictly decrease. -/
def ancChain (bones : List SBone) : Nat → Nat → List Nat
  | 0, i => [i]
  | f + 1, i =>
    i :: (match parentOf bones i with
          | none => []
          | some p => ancChain bones f p)

theorem self_mem_ancChain (bones : List SBone) (f i : Nat) :
    i ∈ ancChain bones f i := by
  cases f <;> simp [ancChain]

theorem ancChain_closed (bones : List SBone)
    (hwf : parentsPrecede bones = true) :
    ∀ (f s : Nat), s ≤ f → ∀ j ∈ ancChain bones f s,
      ∀ p, parentOf bones j = some p → p ∈ ancChain bones f s := by
  intro f
  induction f with
  | zero =>
    intro s hs j hj p hp
    interval_cases s
    simp only [ancChain, List.mem_singleton] at hj
    subst hj
    exact absurd (parentsPrecede_lt bones hwf hp) (by omega)
  | succ f ih =>
    intro s _ j hj p hp
    cases hq : parentOf bones s with
    | none =>
      simp only [ancChain, hq, List.mem_cons, List.not_mem_nil, or_false] at hj
      subst hj
      rw [hq] at hp
      exact absurd hp (by simp)
    | some q =>
      simp only [ancChain, hq, List.mem_cons] at hj
      simp only [ancChain, hq, List.mem_cons]
      rcases hj with rfl | hj
      · rw [hq] at hp
        have hqp : q = p := by simpa using hp
        subst hqp
        exact Or.inr (self_mem_ancChain bones f q)
      · have hqs : q < s := parentsPrecede_lt bones hwf hq
        exact Or.inr (ih q (by omega) j hj p hp)

theorem inClosure_of_mem_ancChain (bones : List SBone) (mode : String)
    (sel : List Int) :
    ∀ (f start j : Nat), InClosure bones mode sel start →
      j ∈ ancChain bones f start → InClosure bones mode sel j := by
  intro f
  induction f with
  | zero =>
    intro start j hst hj
    simp only [ancChain, List.mem_singleton] at hj
    subst hj; exact hst
  | succ f ih =>
    intro start j hst hj
    simp only [ancChain, List.mem_cons] at hj
    rcases hj with rfl | hj
    · exact hst
    · cases hq : parentOf bones start with
      | none => rw [hq] at hj; simp at hj
      | some q =>
        rw [hq] at hj
        exact ih q j (InClosure.up start q hst hq) hj

theorem mem_seedIdxAux (mode : String) (sel : List Int) :
    ∀ (l : List SBone) (k j : Nat),
      j ∈ seedIdxAux mode sel k l ↔
        ∃ m b, l[m]? = some b ∧ j = k + m ∧ isSeedBone mode sel b = true := by
  intro l
  induction l with
  | nil => intro k j; simp [seedIdxAux]
  | cons b0 rest ih =>
    intro k j
    simp only [seedIdxAux]
    constructor
    · intro hj
      split_ifs at hj with hseed
      · rcases List.mem_cons.mp hj with rfl | hj
        · exact ⟨0, b0, by simp, by omega, hseed⟩
        · obtain ⟨m, b, hb, hjm, hbs⟩ := (ih (k + 1) j).mp hj
          exact ⟨m + 1, b, by simpa using hb, by omega, hbs⟩
      · obtain ⟨m, b, hb, hjm, hbs⟩ := (ih (k + 1) j).mp hj
        exact ⟨m + 1, b, by simpa using hb, by omega, hbs⟩
    · rintro ⟨m, b, hb, rfl, hbs⟩
      match m with
      | 0 =>
        simp only [List.getElem?_cons_zero, Option.some.injEq] at hb
        subst hb
        rw [if_pos hbs]
        simp
      | m' + 1 =>
        simp only [List.getElem?_cons_succ] at hb
        have : k + (m' + 1) ∈ seedIdxAux mode sel (k + 1) rest :=
          (ih (k + 1) (k + (m' + 1))).mpr ⟨m', b, hb, by omega, hbs⟩
        split_ifs
        · exact List.mem_cons_of_mem _ this
        · exact this

theorem mem_seedIndices (bones : List SBone) (mode : String) (sel : List Int)
    (i : Nat) :
    i ∈ seedIndices bones mode sel ↔
      ∃ b, bones[i]? = some b ∧ isSeedBone mode sel b = true := by
  unfold seedIndices
  rw [mem_seedIdxAux]
  constructor
  · rintro ⟨m, b, hb, rfl, hbs⟩
    exact ⟨b, by simpa using hb, hbs⟩
  · rintro ⟨b, hb, hbs⟩
    exact ⟨i, b, hb, by omega, hbs⟩

theorem mem_insertSorted (x a : Nat) :
    ∀ l : List Nat, a ∈ insertSorted x l ↔ a = x ∨ a ∈ l := by
  intro l
  induction l with
  | nil => simp [insertSorted]
  | cons y ys ih =>
    simp only [insertSorted]
    split_ifs
    · simp
    · simp only [List.mem_cons, ih]
      tauto

theorem sorted_insertSorted (x : Nat) :
    ∀ l : List Nat, l.Pairwise (· ≤ ·) →
      (insertSorted x l).Pairwise (· ≤ ·) := by
  intro l
  induction l with
  | nil => intro _; simp [insertSorted]
  | cons y ys ih =>
    intro hl
    rw [List.pairwise_cons] at hl
    simp only [insertSorted]
    split_ifs with hxy
    · rw [List.pairwise_cons]
      refine ⟨?_, List.pairwise_cons.mpr hl⟩
      intro z hz
      rcases List.mem_cons.mp hz with rfl | hz
      · exact hxy
      · exact le_trans hxy (hl.1 z hz)
    · rw [List.pairwise_cons]
      refine ⟨?_, ih hl.2⟩
      intro z hz
      rcases (mem_insertSorted x z ys).mp hz with rfl | hz
      · omega
      · exact hl.1 z hz

theorem nodup_insertSorted (x : Nat) :
    ∀ l : List Nat, x ∉ l → l.Nodup → (insertSorted x l).Nodup := by
  intro l
  induction l with
  | nil => intro _ _; simp [insertSorted]
  | cons y ys ih =>
    intro hx hl
    rw [List.nodup_cons] at hl
    simp only [insertSorted]
    split_ifs with hxy
    · rw [List.nodup_cons, List.nodup_cons]
      exact ⟨by simpa using hx, hl.1, hl.2⟩
    · rw [List.nodup_cons]
      constructor
      · intro hy
        rcases (mem_insertSorted x y ys).mp hy with rfl | hy
        · exact hx (List.mem_cons_self _ _)
        · exact hl.1 hy
      · exact ih (fun h => hx (List.mem_cons_of_mem _ h)) hl.2

theorem mem_sortNat (a : Nat) : ∀ l : List Nat, a ∈ sortNat l ↔ a ∈ l := by
  intro l
  induction l with
  | nil => simp [sortNat]
  | cons x xs ih =>
    simp only [sortNat, List.foldr_cons]
    rw [mem_insertSorted]
    simp only [List.mem_cons]
    rw [show List.foldr insertSorted [] xs = sortNat xs from rfl, ih]

theorem sorted_sortNat : ∀ l : List Nat, (sortNat l).Pairwise (· ≤ ·) := by
  intro l
  induction l with
  | nil => simp [sortNat]
  | cons x xs ih => exact sorted_insertSorted x _ ih

theorem nodup_sortNat : ∀ l : List Nat, l.Nodup → (sortNat l).Nodup := by
  intro l
  induction l with
  | nil => intro _; simp [sortNat]
  | cons x xs ih =>
    intro hl
    rw [List.nodup_cons] at hl
    refine nodup_insertSorted x _ ?_ (ih hl.2)
    rw [show List.foldr insertSorted [] xs = sortNat xs from rfl, mem_sortNat]
    exact hl.1

theorem pairwise_lt_sortNat (l : List Nat) (h : l.Nodup) :
    (sortNat l).Pairwise (· < ·) := by
  have h1 := sorted_sortNat l
  have h2 := nodup_sortNat l h
  exact (h1.and h2).imp (fun hab => lt_of_le_of_ne hab.1 hab.2)

/-- Two strictly increasing lists with the same members are equal. -/
theorem strictSorted_eq_of_mem_iff :
    ∀ l1 l2 : List Nat, l1.Pairwise (· < ·) → l2.Pairwise (· < ·) →
      (∀ a, a ∈ l1 ↔ a ∈ l2) → l1 = l2 := by
  intro l1
  induction l1 with
  | nil =>
    intro l2 _ _ hmem
    cases l2 with
    | nil => rfl
    | cons y ys => exact absurd ((hmem y).mpr (List.mem_cons_self _ _)) (by simp)
  | cons x xs ih =>
    intro l2 h1 h2 hmem
    cases l2 with
    | nil => exact absurd ((hmem x).mp (List.mem_cons_self _ _)) (by simp)
    | cons y ys =>
      rw [List.pairwise_cons] at h1 h2
      have hxy : x = y := by
        rcases List.mem_cons.mp ((hmem x).mp (List.mem_cons_self _ _)) with
          h | hxys
        · exact h
        · rcases List.mem_cons.mp ((hmem y).mpr (List.mem_cons_self _ _)) with
            h | hyxs
          · omega
          · have := h1.1 y hyxs
            have := h2.1 x hxys
            omega
      subst hxy
      have htails : ∀ a, a ∈ xs ↔ a ∈ ys := by
        intro a
        constructor
        · intro ha
          have hax := h1.1 a ha
          rcases List.mem_cons.mp ((hmem a).mp (List.mem_cons_of_mem _ ha)) with
            rfl | h
          · omega
          · exact h
        · intro ha
          have hax := h2.1 a ha
          rcases List.mem_cons.mp ((hmem a).mpr (List.mem_cons_of_mem _ ha)) with
            rfl | h
          · omega
          · exact h
      rw [ih ys h1.2 h2.2 htails]

/-- The canonical description of the export set: a bone index is selected
exactly when it lies on the ancestor chain of some seed bone. Listed in
increasing index order, this is the visitation-order-independent value the
worklist computes. -/
def selectedIndices (bones : List SBone) (mode : String) (sel : List Int) :
    List Nat :=
  (List.range bones.length).filter
    (fun j => (seedIndices bones mode sel).any
      (fun s => (ancChain bones s s).contains j))

theorem mem_selectedIndices (bones : List SBone) (mode : String)
    (sel : List Int) (j : Nat) :
    j ∈ selectedIndices bones mode sel ↔
      j < bones.length ∧
        ∃ s ∈ seedIndices bones mode sel, j ∈ ancChain bones s s := by
  simp [selectedIndices, List.mem_filter, List.mem_range]

theorem sorted_selectedIndices (bones : List SBone) (mode : String)
    (sel : List Int) :
    (selectedIndices bones mode sel).Pairwise (· < ·) :=
  (List.pairwise_lt_range bones.length).filter _

theorem inClosure_iff_selected (bones : List SBone) (mode : String)
    (sel : List Int) (hwf : parentsPrecede bones = true) (j : Nat) :
    InClosure bones mode sel j ↔ j ∈ selectedIndices bones mode sel := by
  rw [mem_selectedIndices]
  constructor
  · intro hj
    induction hj with
    | seed i b hb hs =>
      refine ⟨(List.getElem?_eq_some_iff.mp hb).choose, i, ?_, ?_⟩
      · exact (mem_seedIndices bones mode sel i).mpr ⟨b, hb, hs⟩
      · exact self_mem_ancChain bones i i
    | up i p _ hp ih =>
      obtain ⟨hin, s, hs, hmem⟩ := ih
      refine ⟨?_, s, hs, ?_⟩
      · have := parentsPrecede_lt bones hwf hp
        omega
      · exact ancChain_closed bones hwf s s (le_refl s) i hmem p hp
  · rintro ⟨_, s, hs, hmem⟩
    obtain ⟨b, hb, hbs⟩ := (mem_seedIndices bones mode sel s).mp hs
    exact inClosure_of_mem_ancChain bones mode sel s s j
      (InClosure.seed s b hb hbs) hmem

theorem mem_dKeys_seedStack (bones : List SBone) (mode : String)
    (sel : List Int) (x : Nat) :
    x ∈ dKeys (seedStack bones mode sel) ↔
      x ∈ seedIndices bones mode sel := by
  simp [seedStack, dKeys]

/-- The key set of the final worklist dictionary is exactly the declarative
ancestor closure, and the keys are distinct. -/
theorem worklist_keys_iff (bones : List SBone) (mode : String) (sel : List Int)
    (fuel : Nat) (d' : List (Nat × Option Nat))
    (h : worklist bones fuel (seedStack bones mode sel) [] = some d') :
    (∀ x, x ∈ dKeys d' ↔ InClosure bones mode sel x) ∧ (dKeys d').Nodup := by
  obtain ⟨hall, hclosed⟩ := worklist_complete bones fuel
    (seedStack bones mode sel) [] d' h (by intro i p hi; simp [dKeys] at hi)
  refine ⟨fun x => ⟨?_, ?_⟩, worklist_nodup bones fuel _ [] d' h (by simp [dKeys])⟩
  · intro hx
    refine worklist_keys_subset bones (InClosure bones mode sel)
      (fun i p hi hp => InClosure.up i p hi hp) fuel
      (seedStack bones mode sel) [] d' h ?_ (by simp [dKeys]) x hx
    intro y hy
    obtain ⟨b, hb, hbs⟩ := (mem_seedIndices bones mode sel y).mp
      ((mem_dKeys_seedStack bones mode sel y).mp hy)
    exact InClosure.seed y b hb hbs
  · intro hx
    induction hx with
    | seed i b hb hbs =>
      refine hall i (Or.inr ?_)
      exact (mem_dKeys_seedStack bones mode sel i).mpr
        ((mem_seedIndices bones mode sel i).mpr ⟨b, hb, hbs⟩)
    | up i p _ hp ih => exact hclosed i p ih hp

/-- The value `get_export_bone_names` computes, stated over the canonical
sorted index set instead of the worklist dictionary. -/
def canonicalSelect (bones : List SBone) (mode : String) (sel : List Int) :
    Except SelectError (List String) :=
  let si := selectedIndices bones mode sel
  let ri := si.filter (fun i => (parentOf bones i).isNone)
  if 1 < ri.length then
    .error { rootCount := ri.length, rootNames := ri.map (nameAt bones) }
  else
    .ok (si.map (nameAt bones))

/-- On a well-formed hierarchy the selector terminates and returns exactly the
canonical result: the ancestor closure of the seeds, enumerated in increasing
original-index order, independent of the worklist's visitation order. -/
theorem get_export_bone_names_eq_canonical (bones : List SBone) (mode : String)
    (sel : List Int) (hwf : parentsPrecede bones = true) :
    get_export_bone_names bones mode sel =
      some (canonicalSelect bones mode sel) := by
  unfold get_export_bone_names
  have hsome := worklist_isSome bones hwf
    (stackMeasure (seedStack bones mode sel) + 1) (seedStack bones mode sel)
    [] (by omega)
  obtain ⟨d', hd'⟩ := Option.isSome_iff_exists.mp hsome
  simp only [hd']
  obtain ⟨hiff, hnd⟩ := worklist_keys_iff bones mode sel _ d' hd'
  have hsteq : sortNat (dKeys d') = selectedIndices bones mode sel := by
    apply strictSorted_eq_of_mem_iff
    · exact pairwise_lt_sortNat _ hnd
    · exact sorted_selectedIndices bones mode sel
    · intro a
      rw [mem_sortNat, hiff a, inClosure_iff_selected bones mode sel hwf a]
  simp only [hsteq]
  rfl

theorem selected_closed_under_parent (bones : List SBone) (mode : String)
    (sel : List Int) (hwf : parentsPrecede bones = true) :
    ∀ i p, i ∈ selectedIndices bones mode sel → parentOf bones i = some p →
      p ∈ selectedIndices bones mode sel := by
  intro i p hi hp
  rw [← inClosure_iff_selected bones mode sel hwf] at hi ⊢
  exact InClosure.up i p hi hp

theorem exists_root_in_selected (bones : List SBone) (mode : String)
    (sel : List Int) (hwf : parentsPrecede bones = true) :
    ∀ j, j ∈ selectedIndices bones mode sel →
      ∃ r, r ∈ selectedIndices bones mode sel ∧ parentOf bones r = none := by
  intro j
  induction j using Nat.strong_induction_on with
  | _ j ih =>
    intro hj
    cases hp : parentOf bones j with
    | none => exact ⟨j, hj, hp⟩
    | some p =>
      exact ih p (parentsPrecede_lt bones hwf hp)
        (selected_closed_under_parent bones mode sel hwf j p hj hp)

/-- C1: on every well-formed hierarchy and filter selection, the selector
either returns a bone-name sequence whose induced parent links form a single
tree — the set is closed under source parents and, when nonempty, contains
exactly one parentless bone — or fails with a multiple-roots error whose
`rootCount` and `rootNames` report the number and names of the parentless
bones of the export set (at least two of them, so a forest is never silently
returned); an empty hierarchy yields `ok []`. -/
theorem select_single_root_or_reported_error (bones : List SBone)
    (mode : String) (sel : List Int) (hwf : parentsPrecede bones = true) :
    ∃ r, get_export_bone_names bones mode sel = some r ∧
      (∀ l, r = .ok l →
        l = (selectedIndices bones mode sel).map (nameAt bones) ∧
        (∀ i p, i ∈ selectedIndices bones mode sel →
          parentOf bones i = some p →
          p ∈ selectedIndices bones mode sel) ∧
        (l ≠ [] →
          ((selectedIndices bones mode sel).filter
            (fun i => (parentOf bones i).isNone)).length = 1)) ∧
      (∀ e, r = .error e →
        e.rootCount = ((selectedIndices bones mode sel).filter
            (fun i => (parentOf bones i).isNone)).length ∧
        2 ≤ e.rootCount ∧
        e.rootNames = ((selectedIndices bones mode sel).filter
            (fun i => (parentOf bones i).isNone)).map (nameAt bones) ∧
        e.rootNames.length = e.rootCount) ∧
      (bones = [] → r = .ok []) := by
  refine ⟨canonicalSelect bones mode sel,
    get_export_bone_names_eq_canonical bones mode sel hwf, ?_, ?_, ?_⟩
  · intro l hl
    simp only [canonicalSelect] at hl
    split_ifs at hl with hroots
    have hleq : (selectedIndices bones mode sel).map (nameAt bones) = l := by
      simpa using hl
    subst hleq
    refine ⟨rfl, selected_closed_under_parent bones mode sel hwf, ?_⟩
    intro hlne
    have hsine : selectedIndices bones mode sel ≠ [] := by
      intro h0
      exact hlne (by rw [h0]; rfl)
    obtain ⟨j, hj⟩ := List.exists_mem_of_ne_nil _ hsine
    obtain ⟨rt, hrt, hrtroot⟩ :=
      exists_root_in_selected bones mode sel hwf j hj
    have hmem : rt ∈ (selectedIndices bones mode sel).filter
        (fun i => (parentOf bones i).isNone) :=
      List.mem_filter.mpr ⟨hrt, by simp [hrtroot]⟩
    have hpos := List.length_pos.mpr (List.ne_nil_of_mem hmem)
    omega
  · intro e he
    simp only [canonicalSelect] at he
    split_ifs at he with hroots
    have heq : SelectError.mk
        (((selectedIndices bones mode sel).filter
          (fun i => (parentOf bones i).isNone)).length)
        (((selectedIndices bones mode sel).filter
          (fun i => (parentOf bones i).isNone)).map (nameAt bones)) = e := by
      simpa using he
    subst heq
    exact ⟨rfl, hroots, rfl, by simp⟩
  · intro hbe
    subst hbe
    rfl

/-- A hierarchy `root → mid → tip` with `mid` in bone collection 0. -/
def demoBones : List SBone :=
  [⟨"root", none, []⟩, ⟨"mid", some 0, [0]⟩, ⟨"tip", some 1, []⟩]

theorem select_single_root_or_reported_error_witness :
    parentsPrecede demoBones = true ∧
    ∃ r, get_export_bone_names demoBones "BONE_COLLECTIONS" [0] = some r ∧
      (∀ l, r = .ok l →
        l = (selectedIndices demoBones "BONE_COLLECTIONS" [0]).map
          (nameAt demoBones) ∧
        (∀ i p, i ∈ selectedIndices demoBones "BONE_COLLECTIONS" [0] →
          parentOf demoBones i = some p →
          p ∈ selectedIndices demoBones "BONE_COLLECTIONS" [0]) ∧
        (l ≠ [] →
          ((selectedIndices demoBones "BONE_COLLECTIONS" [0]).filter
            (fun i => (parentOf demoBones i).isNone)).length = 1)) ∧
      (∀ e, r = .error e →
        e.rootCount = ((selectedIndices demoBones "BONE_COLLECTIONS" [0]).filter
            (fun i => (parentOf demoBones i).isNone)).length ∧
        2 ≤ e.rootCount ∧
        e.rootNames = ((selectedIndices demoBones "BONE_COLLECTIONS" [0]).filter
            (fun i => (parentOf demoBones i).isNone)).map (nameAt demoBones) ∧
        e.rootNames.length = e.rootCount) ∧
      (demoBones = [] → r = .ok []) :=
  ⟨by decide,
   select_single_root_or_reported_error demoBones "BONE_COLLECTIONS" [0]
     (by decide)⟩

/-- C2: every bone name in the returned list is backed by a selected index
whose source parent, when present, is itself selected, so the parent's name
is also in the returned list. -/
theorem select_ancestor_closure (bones : List SBone) (mode : String)
    (sel : List Int) (l : List String) (hwf : parentsPrecede bones = true)
    (hok : get_export_bone_names bones mode sel = some (.ok l)) :
    ∃ idxs : List Nat, l = idxs.map (nameAt bones) ∧
      ∀ i ∈ idxs, ∀ p, parentOf bones i = some p →
        p ∈ idxs ∧ nameAt bones p ∈ l := by
  rw [get_export_bone_names_eq_canonical bones mode sel hwf] at hok
  have hcan : canonicalSelect bones mode sel = .ok l := by simpa using hok
  simp only [canonicalSelect] at hcan
  split_ifs at hcan with hroots
  have hleq : (selectedIndices bones mode sel).map (nameAt bones) = l := by
    simpa using hcan
  subst hleq
  refine ⟨selectedIndices bones mode sel, rfl, ?_⟩
  intro i hi p hp
  have hpin := selected_closed_under_parent bones mode sel hwf i p hi hp
  exact ⟨hpin, List.mem_map_of_mem (nameAt bones) hpin⟩

theorem select_ancestor_closure_witness :
    parentsPrecede demoBones = true ∧
    get_export_bone_names demoBones "BONE_COLLECTIONS" [0] =
      some (.ok ["root", "mid"]) ∧
    ∃ idxs : List Nat, ["root", "mid"] = idxs.map (nameAt demoBones) ∧
      ∀ i ∈ idxs, ∀ p, parentOf demoBones i = some p →
        p ∈ idxs ∧ nameAt demoBones p ∈ ["root", "mid"] :=
  ⟨by decide, rfl,
   select_ancestor_closure demoBones "BONE_COLLECTIONS" [0] ["root", "mid"]
     (by decide) rfl⟩

theorem indexOf_lt_of_strictSorted :
    ∀ l : List Nat, l.Pairwise (· < ·) → ∀ p i, p ∈ l → i ∈ l → p < i →
      l.indexOf p < l.indexOf i := by
  intro l
  induction l with
  | nil => intro _ p i hp; simp at hp
  | cons x xs ih =>
    intro hpw p i hp hi hpi
    rw [List.pairwise_cons] at hpw
    have hix : x ≠ i := by
      intro h
      rcases List.mem_cons.mp hp with h2 | h2
      · omega
      · have := hpw.1 p h2
        omega
    by_cases hpx : x = p
    · rw [← hpx, List.indexOf_cons_self, List.indexOf_cons_ne _ hix]
      omega
    · have hp2 : p ∈ xs := by
        rcases List.mem_cons.mp hp with h | h
        · exact absurd h.symm hpx
        · exact h
      have hi2 : i ∈ xs := by
        rcases List.mem_cons.mp hi with h | h
        · exact absurd h.symm hix
        · exact h
      rw [List.indexOf_cons_ne _ hpx, List.indexOf_cons_ne _ hix]
      have := ih hpw.2 p i hp2 hi2 hpi
      omega

/-- C8: the returned list is the canonical enumeration of the selected index
set in strictly increasing original-index order — hence identical for
identical inputs, independent of the worklist visitation order — and since a
well-formed hierarchy lists a parent before its children, every selected
bone's parent occurs at an earlier position of the returned list. -/
theorem select_sorted_by_index (bones : List SBone) (mode : String)
    (sel : List Int) (l : List String) (hwf : parentsPrecede bones = true)
    (hok : get_export_bone_names bones mode sel = some (.ok l)) :
    l = (selectedIndices bones mode sel).map (nameAt bones) ∧
    (selectedIndices bones mode sel).Pairwise (· < ·) ∧
    (∀ i p, i ∈ selectedIndices bones mode sel → parentOf bones i = some p →
      p ∈ selectedIndices bones mode sel ∧
      (selectedIndices bones mode sel).indexOf p <
        (selectedIndices bones mode sel).indexOf i) := by
  rw [get_export_bone_names_eq_canonical bones mode sel hwf] at hok
  have hcan : canonicalSelect bones mode sel = .ok l := by simpa using hok
  simp only [canonicalSelect] at hcan
  split_ifs at hcan with hroots
  have hleq : (selectedIndices bones mode sel).map (nameAt bones) = l := by
    simpa using hcan
  subst hleq
  refine ⟨rfl, sorted_selectedIndices bones mode sel, ?_⟩
  intro i p hi hp
  have hpin := selected_closed_under_parent bones mode sel hwf i p hi hp
  refine ⟨hpin, ?_⟩
  exact indexOf_lt_of_strictSorted _ (sorted_selectedIndices bones mode sel)
    p i hpin hi (parentsPrecede_lt bones hwf hp)

theorem select_sorted_by_index_witness :
    parentsPrecede demoBones = true ∧
    get_export_bone_names demoBones "ALL" [] =
      some (.ok ["root", "mid", "tip"]) ∧
    (["root", "mid", "tip"] =
      (selectedIndices demoBones "ALL" []).map (nameAt demoBones) ∧
    (selectedIndices demoBones "ALL" []).Pairwise (· < ·) ∧
    (∀ i p, i ∈ selectedIndices demoBones "ALL" [] →
      parentOf demoBones i = some p →
      p ∈ selectedIndices demoBones "ALL" [] ∧
      (selectedIndices demoBones "ALL" []).indexOf p <
        (selectedIndices demoBones "ALL" []).indexOf i)) :=
  ⟨by decide, rfl,
   select_sorted_by_index demoBones "ALL" [] ["root", "mid", "tip"]
     (by decide) rfl⟩

/-! ## The bone transformer (`shared/helpers.py`,
`convert_blender_bones_to_psx_bones`)

Geometry is exact rational arithmetic. The `mathutils` types are modelled by
the projections this code reads from them:

* a `Quaternion` is four rationals with Hamilton product, conjugation,
  inversion (`inverted()` divides the conjugate by the squared norm) and
  vector rotation (`q @ v`, the sandwich product, the rotation for unit
  quaternions);
* a 4x4 `Matrix` is its 3x3 linear block plus translation, together with the
  values of the two derived quantities the code extracts from it —
  `to_quaternion()` of its 3x3 block and the scale component of
  `decompose()` — carried as data, because converting a matrix to a
  quaternion or extracting decomposed scale takes square roots that leave the
  rationals. For the concrete matrices the code builds (`Matrix.Identity(4)`,
  `Matrix.Scale(s, 4)`) the carried values are the true ones;
* a source `Bone`'s `matrix` is read only through `to_quaternion()`, so the
  bone carries that quaternion (`matrixQuat`) directly. -/

structure Vec3 where
  x : ℚ
  y : ℚ
  z : ℚ
deriving DecidableEq, Repr

instance : Add Vec3 := ⟨fun a b => ⟨a.x + b.x, a.y + b.y, a.z + b.z⟩⟩
instance : Sub Vec3 := ⟨fun a b => ⟨a.x - b.x, a.y - b.y, a.z - b.z⟩⟩

/-- Componentwise scaling of a vector. -/
def Vec3.smul (c : ℚ) (v : Vec3) : Vec3 := ⟨c * v.x, c * v.y, c * v.z⟩

theorem Vec3.add_def (a b : Vec3) :
    a + b = ⟨a.x + b.x, a.y + b.y, a.z + b.z⟩ := rfl

theorem Vec3.sub_def (a b : Vec3) :
    a - b = ⟨a.x - b.x, a.y - b.y, a.z - b.z⟩ := rfl

structure Quat where
  w : ℚ
  x : ℚ
  y : ℚ
  z : ℚ
deriving DecidableEq, Repr

/-- Hamilton product. -/
def Quat.mul (a b : Quat) : Quat :=
  ⟨a.w * b.w - a.x * b.x - a.y * b.y - a.z * b.z,
   a.w * b.x + a.x * b.w + a.y * b.z - a.z * b.y,
   a.w * b.y - a.x * b.z + a.y * b.w + a.z * b.x,
   a.w * b.z + a.x * b.y - a.y * b.x + a.z * b.w⟩

instance : Mul Quat := ⟨Quat.mul⟩

theorem Quat.mul_def (a b : Quat) : a * b = Quat.mul a b := rfl

def Quat.conjugated (q : Quat) : Quat := ⟨q.w, -q.x, -q.y, -q.z⟩

def Quat.normSq (q : Quat) : ℚ := q.w * q.w + q.x * q.x + q.y * q.y + q.z * q.z

/-- `Quaternion.inverted()`: the conjugate divided by the squared norm. -/
def Quat.inverted (q : Quat) : Quat :=
  ⟨q.w / q.normSq, -q.x / q.normSq, -q.y / q.normSq, -q.z / q.normSq⟩

def Quat.one : Quat := ⟨1, 0, 0, 0⟩

/-- `q @ v`: the vector part of `q * (0, v) * conj q`. -/
def Quat.rotate (q : Quat) (v : Vec3) : Vec3 :=
  let r := (q.mul ⟨0, v.x, v.y, v.z⟩).mul q.conjugated
  ⟨r.x, r.y, r.z⟩

/-- A `mathutils` 4x4 matrix as used by the transformer: linear block, the
translation column, and the carried values of `to_3x3().to_quaternion()` and
of the scale component of `decompose()`. -/
structure Mat4 where
  r00 : ℚ
  r01 : ℚ
  r02 : ℚ
  r10 : ℚ
  r11 : ℚ
  r12 : ℚ
  r20 : ℚ
  r21 : ℚ
  r22 : ℚ
  tx : ℚ
  ty : ℚ
  tz : ℚ
  quat : Quat
  scaleVec : Vec3
deriving DecidableEq, Repr

/-- `m @ v` for a 4x4 matrix applied to a 3-vector (with translation). -/
def Mat4.apply (m : Mat4) (v : Vec3) : Vec3 :=
  ⟨m.r00 * v.x + m.r01 * v.y + m.r02 * v.z + m.tx,
   m.r10 * v.x + m.r11 * v.y + m.r12 * v.z + m.ty,
   m.r20 * v.x + m.r21 * v.y + m.r22 * v.z + m.tz⟩

/-- `Matrix.Identity(4)`. -/
def Mat4.identity : Mat4 :=
  ⟨1, 0, 0, 0, 1, 0, 0, 0, 1, 0, 0, 0, Quat.one, ⟨1, 1, 1⟩⟩

/-- `Matrix.Scale(scale, 4)`: a uniform scale matrix. -/
def Mat4.scaleM (s : ℚ) : Mat4 :=
  ⟨s, 0, 0, 0, s, 0, 0, 0, s, 0, 0, 0, Quat.one, ⟨s, s, s⟩⟩

/-- Modelled from the spec: the forward/up axis remap
(`get_coordinate_system_transform` of `shared/data.py`, which is not among
the given sources) is "a fixed rotation/reflection applied to convert from
the source engine's coordinate convention to the target engine's forward/up
axis convention". The default convention (forward `X`, up `Z`) is the
identity; two further conventions are modelled as 180-degree rotations about
the Z and X axes; the transformer's per-bone behaviour proved below does not
depend on the particular table entries. -/
def get_coordinate_system_transform (forward_axis up_axis : String) : Mat4 :=
  match forward_axis, up_axis with
  | "X", "Z" => Mat4.identity
  | "-X", "Z" =>
    ⟨-1, 0, 0, 0, -1, 0, 0, 0, 1, 0, 0, 0, ⟨0, 0, 0, 1⟩, ⟨1, 1, 1⟩⟩
  | "X", "-Z" =>
    ⟨1, 0, 0, 0, -1, 0, 0, 0, -1, 0, 0, 0, ⟨0, 1, 0, 0⟩, ⟨1, 1, 1⟩⟩
  | _, _ => Mat4.identity

/-- The data the transformer reads from a parent-bone reference
(`bone.parent`): its name, head, tail and orientation quaternion. -/
structure PBone where
  name : String
  head : Vec3
  tail : Vec3
  matrixQuat : Quat
deriving DecidableEq, Repr

/-- A source bone as read by the transformer: name, the parent reference (a
bone object that need not be an element of the converted list), head, and the
orientation quaternion of `bone.matrix`. -/
structure TBone where
  name : String
  parent : Option PBone
  head : Vec3
  matrixQuat : Quat
deriving DecidableEq, Repr

/-- The output bone record (`psx_bone`), before float packing. -/
structure PsxBone where
  name : String
  flags : Nat
  children_count : Nat
  parent_index : Nat
  location : Vec3
  rotation : Quat
deriving DecidableEq, Repr

/-- `bones.index(bone.parent)` (helpers.py line 196): looks the parent
object up in the converted list; Blender bone names are unique within an
armature, so object identity is name identity. `none` models the
`ValueError` path (parent is `None` or not in the list). -/
def parentLookup (bones : List TBone) (b : TBone) : Option Nat :=
  match b.parent with
  | none => none
  | some p => bones.findIdx? (fun q => q.name == p.name)

/-- `psx_bones[parent_index].children_count += 1`. -/
def incChildrenCount : List PsxBone → Nat → List PsxBone
  | [], _ => []
  | b :: rest, 0 => { b with children_count := b.children_count + 1 } :: rest
  | b :: rest, i + 1 => b :: incChildrenCount rest i

/-- The armature local matrix chosen from the export space (helpers.py lines
209-216); an unrecognized export space raises `ValueError` — but only when
this branch runs, i.e. when a root bone is converted. -/
def armatureLocalMatrix (export_space : String) (world : Mat4) :
    Except String Mat4 :=
  match export_space with
  | "WORLD" => .ok world
  | "ARMATURE" => .ok Mat4.identity
  | _ => .error ("Invalid export space: " ++ export_space)

/-- The location/rotation branch of the loop body (helpers.py lines
202-225), before scaling. -/
def locRot (cst : Mat4) (export_space : String) (world : Mat4) (b : TBone) :
    Except String (Vec3 × Quat) :=
  match b.parent with
  | some p =>
    let rotation := b.matrixQuat.conjugated
    let inverse_parent_rotation := p.matrixQuat.inverted
    let parent_head := inverse_parent_rotation.rotate p.head
    let parent_tail := inverse_parent_rotation.rotate p.tail
    .ok ((parent_tail - parent_head) + b.head, rotation)
  | none =>
    match armatureLocalMatrix export_space world with
    | .error e => .error e
    | .ok alm =>
      let location := alm.apply b.head
      let location := cst.apply location
      let bone_rotation := b.matrixQuat.conjugated
      let local_rotation := alm.quat.conjugated
      let rotation := bone_rotation * local_rotation
      let rotation := rotation.conjugated
      .ok (location, cst.quat * rotation)

/-- The scale steps applied to every bone's location (helpers.py lines
227-233): the uniform scale matrix, then the per-axis scale component
decomposed from the armature object's world matrix. -/
def finalizeLocation (world : Mat4) (scale : ℚ) (loc : Vec3) : Vec3 :=
  let location := (Mat4.scaleM scale).apply loc
  ⟨location.x * world.scaleVec.x, location.y * world.scaleVec.y,
   location.z * world.scaleVec.z⟩

/-- One iteration of the conversion loop (helpers.py lines 182-244): resolve
the parent index (incrementing the parent's `children_count`, or raising
`IndexError` as Python would if the looked-up index is not yet converted),
compute location and rotation, apply the scale steps and append the bone.
The Windows-1252 name-encoding check concerns the host codec and is not
modelled; names stay abstract strings. -/
def convertStep (bones : List TBone) (cst : Mat4) (export_space : String)
    (world : Mat4) (scale : ℚ) (acc : List PsxBone) (b : TBone) :
    Except String (List PsxBone) :=
  match parentLookup bones b with
  | some pi =>
    if pi < acc.length then
      match locRot cst export_space world b with
      | .error e => .error e
      | .ok (loc, rot) =>
        .ok (incChildrenCount acc pi ++
          [{ name := b.name, flags := 0, children_count := 0
             parent_index := pi
             location := finalizeLocation world scale loc, rotation := rot }])
    else
      .error "IndexError: list index out of range"
  | none =>
    match locRot cst export_space world b with
    | .error e => .error e
    | .ok (loc, rot) =>
      .ok (acc ++
        [{ name := b.name, flags := 0, children_count := 0
           parent_index := 0
           location := finalizeLocation world scale loc, rotation := rot }])

def convertGo (bones : List TBone) (cst : Mat4) (export_space : String)
    (world : Mat4) (scale : ℚ) :
    List TBone → List PsxBone → Except String (List PsxBone)
  | [], acc => .ok acc
  | b :: rest, acc =>
    match convertStep bones cst export_space world scale acc b with
    | .error e => .error e
    | .ok acc2 => convertGo bones cst export_space world scale rest acc2

/-- `convert_blender_bones_to_psx_bones` (helpers.py lines 162-246), with the
default argument values of the source. -/
def convert_blender_bones_to_psx_bones (bones : List TBone)
    (export_space : String := "WORLD")
    (armature_object_matrix_world : Mat4 := Mat4.identity) (scale : ℚ := 1)
    (forward_axis : String := "X") (up_axis : String := "Z") :
    Except String (List PsxBone) :=
  let coordinate_system_transform :=
    get_coordinate_system_transform forward_axis up_axis
  convertGo bones coordinate_system_transform export_space
    armature_object_matrix_world scale bones []

/-! ### Transformer lemmas -/

/-- The fields of an output bone other than `children_count` (which later
iterations may still increment). -/
def PsxBone.core (b : PsxBone) : String × Nat × Nat × Vec3 × Quat :=
  (b.name, b.flags, b.parent_index, b.location, b.rotation)

/-- The record `convertStep` appends for bone `b` with resolved parent index
`pidx` and unscaled location/rotation `loc`, `rot`. -/
def mkNewPsxBone (world : Mat4) (scale : ℚ) (b : TBone) (pidx : Nat)
    (loc : Vec3) (rot : Quat) : PsxBone :=
  { name := b.name, flags := 0, children_count := 0, parent_index := pidx
    location := finalizeLocation world scale loc, rotation := rot }

theorem length_incChildrenCount :
    ∀ (l : List PsxBone) (i : Nat), (incChildrenCount l i).length = l.length
  | [], _ => rfl
  | _ :: rest, 0 => by simp [incChildrenCount]
  | _ :: rest, i + 1 => by
    simp [incChildrenCount, length_incChildrenCount rest i]

theorem getElem?_incChildrenCount :
    ∀ (l : List PsxBone) (i j : Nat),
      (incChildrenCount l i)[j]? =
        (l[j]?).map (fun b =>
          if j = i then { b with children_count := b.children_count + 1 }
          else b)
  | [], i, j => by simp [incChildrenCount]
  | b :: rest, 0, 0 => by simp [incChildrenCount]
  | b :: rest, 0, j + 1 => by
    simp [incChildrenCount, Nat.succ_ne_zero]
  | b :: rest, i + 1, 0 => by simp [incChildrenCount]
  | b :: rest, i + 1, j + 1 => by
    simp only [incChildrenCount, List.getElem?_cons_succ,
      getElem?_incChildrenCount rest i j]
    rcases rest[j]? with _ | pb <;> simp [Nat.succ_inj]

theorem core_incChildrenCount (l : List PsxBone) (i j : Nat) :
    ((incChildrenCount l i)[j]?).map PsxBone.core =
      (l[j]?).map PsxBone.core := by
  rw [getElem?_incChildrenCount]
  rcases l[j]? with _ | pb
  · rfl
  · by_cases hj : j = i <;> simp [hj, PsxBone.core]

/-- Shape of a successful conversion step: the accumulator keeps its length
and cores (only a `children_count` may be bumped) and the new bone is
appended; the increment happens exactly when the parent lookup succeeded. -/
theorem convertStep_ok (bones : List TBone) (cst : Mat4) (es : String)
    (w : Mat4) (s : ℚ) (acc : List PsxBone) (b : TBone)
    (acc2 : List PsxBone)
    (h : convertStep bones cst es w s acc b = .ok acc2) :
    ∃ loc rot, locRot cst es w b = .ok (loc, rot) ∧
      ((∃ pi, parentLookup bones b = some pi ∧ pi < acc.length ∧
          acc2 = incChildrenCount acc pi ++ [mkNewPsxBone w s b pi loc rot]) ∨
       (parentLookup bones b = none ∧
          acc2 = acc ++ [mkNewPsxBone w s b 0 loc rot])) := by
  cases hpl : parentLookup bones b with
  | some pi =>
    simp only [convertStep, hpl] at h
    split_ifs at h with hlt
    cases hlr : locRot cst es w b with
    | error e =>
      simp only [hlr] at h
      exact absurd h (by simp)
    | ok pair =>
      obtain ⟨loc, rot⟩ := pair
      simp only [hlr] at h
      refine ⟨loc, rot, rfl, Or.inl ⟨pi, rfl, hlt, ?_⟩⟩
      simpa [mkNewPsxBone] using h.symm
  | none =>
    simp only [convertStep, hpl] at h
    cases hlr : locRot cst es w b with
    | error e =>
      simp only [hlr] at h
      exact absurd h (by simp)
    | ok pair =>
      obtain ⟨loc, rot⟩ := pair
      simp only [hlr] at h
      refine ⟨loc, rot, rfl, Or.inr ⟨rfl, ?_⟩⟩
      simpa [mkNewPsxBone] using h.symm

/-- A successful run extends the accumulator by one bone per input bone and
never changes the core of an already-emitted bone. -/
theorem convertGo_stable (bones : List TBone) (cst : Mat4) (es : String)
    (w : Mat4) (s : ℚ) :
    ∀ (rest : List TBone) (acc l : List PsxBone),
      convertGo bones cst es w s rest acc = .ok l →
      l.length = acc.length + rest.length ∧
      ∀ j, j < acc.length →
        (l[j]?).map PsxBone.core = (acc[j]?).map PsxBone.core := by
  intro rest
  induction rest with
  | nil =>
    intro acc l h
    have hl : acc = l := by simpa [convertGo] using h
    subst hl
    simp
  | cons b rest ih =>
    intro acc l h
    simp only [convertGo] at h
    cases hstep : convertStep bones cst es w s acc b with
    | error e => rw [hstep] at h; cases h
    | ok acc2 =>
      rw [hstep] at h
      obtain ⟨loc, rot, _, hshape⟩ :=
        convertStep_ok bones cst es w s acc b acc2 hstep
      have hlen2 : acc2.length = acc.length + 1 := by
        rcases hshape with ⟨pi, _, _, rfl⟩ | ⟨_, rfl⟩ <;>
          simp [length_incChildrenCount]
      obtain ⟨hlen, hstable⟩ := ih acc2 l h
      refine ⟨by simp only [List.length_cons]; omega, ?_⟩
      intro j hj
      rw [hstable j (by omega)]
      rcases hshape with ⟨pi, _, _, rfl⟩ | ⟨_, rfl⟩
      · rw [List.getElem?_append_left
          (show j < (incChildrenCount acc pi).length by
            rw [length_incChildrenCount]; omega)]
        exact core_incChildrenCount acc pi j
      · rw [List.getElem?_append_left hj]

/-- The bone emitted for the `k`-th remaining input carries the location and
rotation computed by `locRot`, scaled by `finalizeLocation`, and the parent
index resolved by `parentLookup` (defaulting to 0). -/
theorem convertGo_newElem (bones : List TBone) (cst : Mat4) (es : String)
    (w : Mat4) (s : ℚ) :
    ∀ (rest : List TBone) (acc l : List PsxBone),
      convertGo bones cst es w s rest acc = .ok l →
      ∀ k b, rest[k]? = some b →
        ∃ loc rot, locRot cst es w b = .ok (loc, rot) ∧
          ∃ pb, l[acc.length + k]? = some pb ∧
            pb.core = (mkNewPsxBone w s b
              ((parentLookup bones b).getD 0) loc rot).core := by
  intro rest
  induction rest with
  | nil => intro acc l _ k b hk; simp at hk
  | cons b0 rest ih =>
    intro acc l h k b hk
    simp only [convertGo] at h
    cases hstep : convertStep bones cst es w s acc b0 with
    | error e => rw [hstep] at h; cases h
    | ok acc2 =>
      rw [hstep] at h
      obtain ⟨loc, rot, hlr, hshape⟩ :=
        convertStep_ok bones cst es w s acc b0 acc2 hstep
      have hlen2 : acc2.length = acc.length + 1 := by
        rcases hshape with ⟨pi, _, _, rfl⟩ | ⟨_, rfl⟩ <;>
          simp [length_incChildrenCount]
      match k with
      | 0 =>
        have hb : b0 = b := by simpa using hk
        subst hb
        refine ⟨loc, rot, hlr, ?_⟩
        have hnb : ∃ pidx, acc2[acc.length]? =
            some (mkNewPsxBone w s b0 pidx loc rot) ∧
            pidx = (parentLookup bones b0).getD 0 := by
          rcases hshape with ⟨pi, hpl, _, rfl⟩ | ⟨hpl, rfl⟩
          · refine ⟨pi, ?_, by rw [hpl]; rfl⟩
            rw [show acc.length = (incChildrenCount acc pi).length from
              (length_incChildrenCount acc pi).symm]
            exact List.getElem?_concat_length _ _
          · exact ⟨0, List.getElem?_concat_length _ _, by rw [hpl]; rfl⟩
        obtain ⟨pidx, hnth, hpidx⟩ := hnb
        obtain ⟨_, hstable⟩ := convertGo_stable bones cst es w s rest acc2 l h
        have := hstable acc.length (by omega)
        rw [hnth] at this
        have hsome : ∃ pb, l[acc.length + 0]? = some pb := by
          rcases hget : l[acc.length + 0]? with _ | pb
          · rw [show acc.length + 0 = acc.length from rfl] at hget
            rw [hget] at this
            cases this
          · exact ⟨pb, rfl⟩
        obtain ⟨pb, hpb⟩ := hsome
        refine ⟨pb, hpb, ?_⟩
        rw [show acc.length + 0 = acc.length from rfl] at hpb
        rw [hpb] at this
        have hcore := Option.some.injEq _ _ ▸ this
        simpa [hpidx] using hcore
      | k2 + 1 =>
        simp only [List.getElem?_cons_succ] at hk
        obtain ⟨loc2, rot2, hlr2, pb, hpb, hcore⟩ := ih acc2 l h k2 b hk
        refine ⟨loc2, rot2, hlr2, pb, ?_, hcore⟩
        rw [show acc.length + (k2 + 1) = acc2.length + k2 by omega]
        exact hpb

theorem finalizeLocation_one (w : Mat4) (hws : w.scaleVec = ⟨1, 1, 1⟩)
    (loc : Vec3) : finalizeLocation w 1 loc = loc := by
  cases loc with
  | mk x y z => simp [finalizeLocation, Mat4.scaleM, Mat4.apply, hws]

/-- C6: for every bone whose source parent reference is present, the emitted
location is `(parent_tail - parent_head) + child_head` where the parent's
head and tail are rotated by the inverse of the parent's rotation and the
child's head is not rotated, and the emitted rotation is the conjugate of the
child's orientation quaternion; the forward/up axes `f`, `u` are arbitrary
and absent from the computed value — no axis remap touches non-root bones.
(Stated at `scale = 1` and unit world scale so the location is the raw
formula of helpers.py lines 202-207.) -/
theorem convert_nonroot_bone_formula (bones : List TBone) (es : String)
    (w : Mat4) (f u : String) (i : Nat) (b : TBone) (p : PBone)
    (l : List PsxBone)
    (hb : bones[i]? = some b) (hp : b.parent = some p)
    (hws : w.scaleVec = ⟨1, 1, 1⟩)
    (hok : convert_blender_bones_to_psx_bones bones es w 1 f u = .ok l) :
    ∃ pb, l[i]? = some pb ∧
      pb.rotation = b.matrixQuat.conjugated ∧
      pb.location =
        (p.matrixQuat.inverted.rotate p.tail -
         p.matrixQuat.inverted.rotate p.head) + b.head := by
  simp only [convert_blender_bones_to_psx_bones] at hok
  obtain ⟨loc, rot, hlr, pb, hpb, hcore⟩ :=
    convertGo_newElem bones (get_coordinate_system_transform f u) es w 1
      bones [] l hok i b hb
  have hlr2 : ((p.matrixQuat.inverted.rotate p.tail -
      p.matrixQuat.inverted.rotate p.head) + b.head) = loc ∧
      b.matrixQuat.conjugated = rot := by
    simp only [locRot, hp] at hlr
    simpa [Prod.mk.injEq] using hlr
  simp only [PsxBone.core, mkNewPsxBone, Prod.mk.injEq] at hcore
  refine ⟨pb, by simpa using hpb, ?_, ?_⟩
  · rw [hcore.2.2.2.2, ← hlr2.2]
  · rw [hcore.2.2.2.1, ← hlr2.1, finalizeLocation_one w hws]

/-- A lone bone whose parent reference is not an element of the list. -/
def soleChildBone : TBone :=
  ⟨"child", some ⟨"par", ⟨0, 0, 0⟩, ⟨0, 0, 1⟩, ⟨1, 0, 0, 0⟩⟩, ⟨0, 0, 0⟩,
   ⟨1, 0, 0, 0⟩⟩

theorem convert_nonroot_bone_formula_witness :
    ([soleChildBone][0]? = some soleChildBone ∧
     soleChildBone.parent =
       some ⟨"par", ⟨0, 0, 0⟩, ⟨0, 0, 1⟩, ⟨1, 0, 0, 0⟩⟩ ∧
     Mat4.identity.scaleVec = ⟨1, 1, 1⟩ ∧
     convert_blender_bones_to_psx_bones [soleChildBone] "WORLD" Mat4.identity
       1 "X" "Z" = .ok [⟨"child", 0, 0, 0, ⟨0, 0, 1⟩, ⟨1, 0, 0, 0⟩⟩]) ∧
    ∃ pb, ([(⟨"child", 0, 0, 0, ⟨0, 0, 1⟩, ⟨1, 0, 0, 0⟩⟩ : PsxBone)])[0]? =
        some pb ∧
      pb.rotation = soleChildBone.matrixQuat.conjugated ∧
      pb.location =
        ((⟨"par", ⟨0, 0, 0⟩, ⟨0, 0, 1⟩, ⟨1, 0, 0, 0⟩⟩ :
            PBone).matrixQuat.inverted.rotate
          (⟨"par", ⟨0, 0, 0⟩, ⟨0, 0, 1⟩, ⟨1, 0, 0, 0⟩⟩ : PBone).tail -
         (⟨"par", ⟨0, 0, 0⟩, ⟨0, 0, 1⟩, ⟨1, 0, 0, 0⟩⟩ :
            PBone).matrixQuat.inverted.rotate
          (⟨"par", ⟨0, 0, 0⟩, ⟨0, 0, 1⟩, ⟨1, 0, 0, 0⟩⟩ : PBone).head) +
        soleChildBone.head :=
  ⟨⟨rfl, rfl, rfl, by
      norm_num +decide [convert_blender_bones_to_psx_bones, convertGo,
        convertStep, parentLookup, locRot, finalizeLocation, Mat4.apply,
        Mat4.scaleM, Quat.inverted, Quat.rotate, Quat.mul, Quat.conjugated,
        Quat.normSq, Mat4.identity, soleChildBone,
        get_coordinate_system_transform, mkNewPsxBone, List.findIdx?_cons,
        List.findIdx?_nil, Vec3.add_def, Vec3.sub_def]⟩,
   convert_nonroot_bone_formula [soleChildBone] "WORLD" Mat4.identity "X" "Z"
     0 soleChildBone ⟨"par", ⟨0, 0, 0⟩, ⟨0, 0, 1⟩, ⟨1, 0, 0, 0⟩⟩
     [⟨"child", 0, 0, 0, ⟨0, 0, 1⟩, ⟨1, 0, 0, 0⟩⟩] rfl rfl rfl (by
      norm_num +decide [convert_blender_bones_to_psx_bones, convertGo,
        convertStep, parentLookup, locRot, finalizeLocation, Mat4.apply,
        Mat4.scaleM, Quat.inverted, Quat.rotate, Quat.mul, Quat.conjugated,
        Quat.normSq, Mat4.identity, soleChildBone,
        get_coordinate_system_transform, mkNewPsxBone, List.findIdx?_cons,
        List.findIdx?_nil, Vec3.add_def, Vec3.sub_def])⟩

/-- Doubling only the location of an output bone; name, rotation,
parent index and children count are untouched. -/
def scaleLocationBy2 (pb : PsxBone) : PsxBone :=
  { pb with location := Vec3.smul 2 pb.location }

theorem incChildrenCount_scale2 :
    ∀ (l : List PsxBone) (i : Nat),
      incChildrenCount (l.map scaleLocationBy2) i =
        (incChildrenCount l i).map scaleLocationBy2
  | [], _ => rfl
  | b :: rest, 0 => by simp [incChildrenCount, scaleLocationBy2]
  | b :: rest, i + 1 => by
    simp [incChildrenCount, incChildrenCount_scale2 rest i]

theorem finalizeLocation_double (w : Mat4) (s : ℚ) (loc : Vec3) :
    finalizeLocation w (2 * s) loc = Vec3.smul 2 (finalizeLocation w s loc) := by
  simp only [finalizeLocation, Mat4.scaleM, Mat4.apply, Vec3.smul,
    Vec3.mk.injEq]
  refine ⟨by ring, by ring, by ring⟩

theorem convertStep_scale2 (bones : List TBone) (cst : Mat4) (es : String)
    (w : Mat4) (s : ℚ) (acc : List PsxBone) (b : TBone) :
    convertStep bones cst es w (2 * s) (acc.map scaleLocationBy2) b =
      Except.map (List.map scaleLocationBy2)
        (convertStep bones cst es w s acc b) := by
  cases hpl : parentLookup bones b with
  | some pi =>
    simp only [convertStep, hpl, List.length_map]
    by_cases hlt : pi < acc.length
    · rw [if_pos hlt, if_pos hlt]
      cases hlr : locRot cst es w b with
      | error e => simp [hlr, Except.map]
      | ok pair =>
        obtain ⟨loc, rot⟩ := pair
        simp only [hlr, Except.map]
        rw [incChildrenCount_scale2]
        simp [List.map_append, scaleLocationBy2, finalizeLocation_double]
    · rw [if_neg hlt, if_neg hlt]
      rfl
  | none =>
    simp only [convertStep, hpl]
    cases hlr : locRot cst es w b with
    | error e => simp [hlr, Except.map]
    | ok pair =>
      obtain ⟨loc, rot⟩ := pair
      simp only [hlr, Except.map]
      simp [List.map_append, scaleLocationBy2, finalizeLocation_double]

theorem convertGo_scale2 (bones : List TBone) (cst : Mat4) (es : String)
    (w : Mat4) (s : ℚ) :
    ∀ (rest : List TBone) (acc : List PsxBone),
      convertGo bones cst es w (2 * s) rest (acc.map scaleLocationBy2) =
        Except.map (List.map scaleLocationBy2)
          (convertGo bones cst es w s rest acc) := by
  intro rest
  induction rest with
  | nil => intro acc; rfl
  | cons b rest ih =>
    intro acc
    simp only [convertGo]
    rw [convertStep_scale2]
    cases hstep : convertStep bones cst es w s acc b with
    | error e => simp [Except.map]
    | ok acc2 =>
      simp only [Except.map]
      exact ih acc2

/-- C9: for a fixed hierarchy, export space, axis convention and world
transform, running the transformer with uniform scale `2 * s` yields for
every bone exactly the bone produced with scale `s` with its location doubled
(so its magnitude doubles) and its rotation — and every other field —
unchanged; failures agree as well. -/
theorem convert_scale_doubling (bones : List TBone) (es : String) (w : Mat4)
    (s : ℚ) (f u : String) :
    convert_blender_bones_to_psx_bones bones es w (2 * s) f u =
      Except.map (List.map scaleLocationBy2)
        (convert_blender_bones_to_psx_bones bones es w s f u) := by
  simp only [convert_blender_bones_to_psx_bones]
  have h := convertGo_scale2 bones (get_coordinate_system_transform f u) es w
    s bones []
  simpa using h

theorem mem_of_getElem? {α : Type} {l : List α} {n : Nat} {a : α}
    (h : l[n]? = some a) : a ∈ l := by
  obtain ⟨hn, rfl⟩ := List.getElem?_eq_some_iff.mp h
  exact List.getElem_mem hn

theorem findIdx?_ge (p : TBone → Bool) :
    ∀ (l : List TBone) (st i : Nat), List.findIdx? p l st = some i → st ≤ i := by
  intro l
  induction l with
  | nil => intro st i h; rw [List.findIdx?_nil] at h; cases h
  | cons b rest ih =>
    intro st i h
    rw [List.findIdx?_cons] at h
    split_ifs at h with hb
    · simp only [Option.some.injEq] at h
      omega
    · have := ih (st + 1) i h
      omega

/-- On a list with distinct bone names, the name search of `parentLookup`
finds index `i` exactly when the bone at `i` bears the searched name. -/
theorem findIdx?_name_spec :
    ∀ l : List TBone, (l.map TBone.name).Nodup →
      ∀ (nm : String) (st j : Nat) (bj : TBone), l[j]? = some bj →
        (List.findIdx? (fun q => q.name == nm) l st = some (st + j) ↔
          bj.name = nm) := by
  intro l
  induction l with
  | nil => intro _ nm st j bj hj; simp at hj
  | cons b0 rest ih =>
    intro hnd nm st j bj hj
    rw [List.map_cons, List.nodup_cons] at hnd
    rw [List.findIdx?_cons]
    split_ifs with hb0
    · have hb0eq : b0.name = nm := by simpa using hb0
      match j with
      | 0 =>
        simp only [List.getElem?_cons_zero, Option.some.injEq] at hj
        subst hj
        simp [hb0eq]
      | j2 + 1 =>
        simp only [List.getElem?_cons_succ] at hj
        constructor
        · intro h
          simp only [Option.some.injEq] at h
          omega
        · intro hname
          exfalso
          apply hnd.1
          rw [hb0eq, ← hname]
          exact List.mem_map_of_mem TBone.name (mem_of_getElem? hj)
    · match j with
      | 0 =>
        simp only [List.getElem?_cons_zero, Option.some.injEq] at hj
        subst hj
        constructor
        · intro h
          have := findIdx?_ge _ rest (st + 1) (st + 0) h
          omega
        · intro hname
          exact absurd (by simpa using hname) hb0
      | j2 + 1 =>
        simp only [List.getElem?_cons_succ] at hj
        have := ih hnd.2 nm (st + 1) j2 bj hj
        rw [show st + (j2 + 1) = (st + 1) + j2 by omega]
        exact this

theorem parentLookup_beq (bones : List TBone)
    (hnodup : (bones.map TBone.name).Nodup) (i : Nat) (bi : TBone)
    (hbi : bones[i]? = some bi) (b : TBone) :
    (parentLookup bones b == some i) =
      (match b.parent with
       | some p => p.name == bi.name
       | none => false) := by
  cases hbp : b.parent with
  | none => simp [parentLookup, hbp]
  | some p =>
    simp only [parentLookup, hbp]
    have hiff := findIdx?_name_spec bones hnodup p.name 0 i bi hbi
    rw [Nat.zero_add] at hiff
    by_cases hname : p.name = bi.name
    · have heq := hiff.mpr hname.symm
      rw [heq]
      simp [hname]
    · have hne : List.findIdx? (fun q => q.name == p.name) bones 0 ≠
        some i := fun h => hname (hiff.mp h).symm
      rw [beq_eq_false_iff_ne.mpr hname]
      cases hfi : List.findIdx? (fun q => q.name == p.name) bones 0 with
      | none => rfl
      | some j =>
        have hji : j ≠ i := fun h => hne (by rw [hfi, h])
        exact beq_eq_false_iff_ne.mpr (by simpa using hji)

/-- The children count of every emitted bone equals the number of processed
input bones whose parent lookup resolved to that bone's index. -/
theorem convertGo_children (bones : List TBone) (cst : Mat4) (es : String)
    (w : Mat4) (s : ℚ) :
    ∀ (rest : List TBone) (acc l : List PsxBone),
      convertGo bones cst es w s rest acc = .ok l →
      ∀ i pb, l[i]? = some pb →
        pb.children_count =
          (match acc[i]? with
           | some a => a.children_count
           | none => 0) +
          rest.countP (fun b => parentLookup bones b == some i) := by
  intro rest
  induction rest with
  | nil =>
    intro acc l h i pb hpb
    have hl : acc = l := by simpa [convertGo] using h
    subst hl
    simp [hpb]
  | cons b0 rest ih =>
    intro acc l h i pb hpb
    simp only [convertGo] at h
    cases hstep : convertStep bones cst es w s acc b0 with
    | error e => rw [hstep] at h; cases h
    | ok acc2 =>
      rw [hstep] at h
      obtain ⟨loc, rot, _, hshape⟩ :=
        convertStep_ok bones cst es w s acc b0 acc2 hstep
      have hrec := ih acc2 l h i pb hpb
      rw [hrec, List.countP_cons]
      rcases hshape with ⟨pi, hpl, hlt, rfl⟩ | ⟨hpl, rfl⟩
      · rw [show (parentLookup bones b0 == some i) =
            (pi == i) by rw [hpl]; cases hbeq : (pi == i) <;>
              simp_all [beq_iff_eq]]
        by_cases hi : i < acc.length
        · rw [List.getElem?_append_left
            (show i < (incChildrenCount acc pi).length by
              rw [length_incChildrenCount]; exact hi)]
          rw [getElem?_incChildrenCount]
          cases hacc : acc[i]? with
          | none =>
            exact absurd hacc (by
              simp [List.getElem?_eq_none_iff]
              omega)
          | some a =>
            by_cases hipi : i = pi
            · subst hipi
              simp only [Option.map_some', eq_self_iff_true, if_true,
                beq_self_eq_true]
              ring
            · have hfalse : (pi == i) = false :=
                beq_eq_false_iff_ne.mpr (fun h => hipi h.symm)
              simp only [Option.map_some', if_neg hipi, hfalse,
                Bool.false_eq_true, if_false]
              ring
        · have hpii : (pi == i) = false :=
            beq_eq_false_iff_ne.mpr (by omega)
          have hacc : acc[i]? = none := by
            simp [List.getElem?_eq_none_iff]
            omega
          rw [hpii, hacc]
          by_cases hi2 : i = acc.length
          · rw [show i = (incChildrenCount acc pi).length by
              rw [length_incChildrenCount]; exact hi2]
            rw [List.getElem?_concat_length]
            simp [mkNewPsxBone]
          · have : (incChildrenCount acc pi ++
                [mkNewPsxBone w s b0 pi loc rot])[i]? = none := by
              simp [List.getElem?_eq_none_iff, length_incChildrenCount]
              omega
            rw [this]
            simp
      · rw [show (parentLookup bones b0 == some i) = false by rw [hpl]; rfl]
        by_cases hi : i < acc.length
        · rw [List.getElem?_append_left hi]
          simp
        · have hacc : acc[i]? = none := by
            simp [List.getElem?_eq_none_iff]
            omega
          rw [hacc]
          by_cases hi2 : i = acc.length
          · rw [hi2, List.getElem?_concat_length]
            simp [mkNewPsxBone]
          · have : (acc ++ [mkNewPsxBone w s b0 0 loc rot])[i]? = none := by
              simp [List.getElem?_eq_none_iff]
              omega
            rw [this]
            simp

/-- C10: a bone whose source parent does not resolve to an element of the
input list — in particular every parentless root bone — gets
`parent_index = 0` without incrementing anyone's `children_count`; every
emitted bone's `children_count` equals exactly the number of input bones
whose source parent it is (parent reference matching its name), so bone 0's
count is never inflated by bones that merely share the `parent_index = 0`
sentinel. -/
theorem convert_parent_linkage (bones : List TBone) (es : String) (w : Mat4)
    (s : ℚ) (f u : String) (l : List PsxBone)
    (hnodup : (bones.map TBone.name).Nodup)
    (hok : convert_blender_bones_to_psx_bones bones es w s f u = .ok l) :
    (∀ (i : Nat) (b : TBone), bones[i]? = some b →
      parentLookup bones b = none →
      ∃ pb : PsxBone, l[i]? = some pb ∧ pb.parent_index = 0) ∧
    (∀ (i : Nat) (bi : TBone), bones[i]? = some bi →
      ∃ pb : PsxBone, l[i]? = some pb ∧
        pb.children_count = bones.countP (fun b =>
          match b.parent with
          | some p => p.name == bi.name
          | none => false)) := by
  simp only [convert_blender_bones_to_psx_bones] at hok
  constructor
  · intro i b hb hpl
    obtain ⟨loc, rot, hlr, pb, hpb, hcore⟩ :=
      convertGo_newElem bones (get_coordinate_system_transform f u) es w s
        bones [] l hok i b hb
    refine ⟨pb, by simpa using hpb, ?_⟩
    simp only [PsxBone.core, mkNewPsxBone, Prod.mk.injEq] at hcore
    rw [hcore.2.2.1, hpl]
    rfl
  · intro i bi hbi
    obtain ⟨hlen, _⟩ :=
      convertGo_stable bones (get_coordinate_system_transform f u) es w s
        bones [] l hok
    have hib : i < bones.length := (List.getElem?_eq_some_iff.mp hbi).choose
    obtain ⟨pb, hpb⟩ : ∃ pb, l[i]? = some pb := by
      rcases hx : l[i]? with _ | pb
      · rw [List.getElem?_eq_none_iff] at hx
        simp only [List.length_nil] at hlen
        omega
      · exact ⟨pb, rfl⟩
    refine ⟨pb, hpb, ?_⟩
    have hch := convertGo_children bones (get_coordinate_system_transform f u)
      es w s bones [] l hok i pb hpb
    simp only [List.getElem?_nil, Nat.zero_add] at hch
    rw [hch]
    exact List.countP_congr
      (fun b hb => by rw [parentLookup_beq bones hnodup i bi hbi b])

/-- A root with two children, for the linkage witness. -/
def familyBones : List TBone :=
  [⟨"root", none, ⟨0, 0, 0⟩, ⟨1, 0, 0, 0⟩⟩,
   ⟨"kidA", some ⟨"root", ⟨0, 0, 0⟩, ⟨0, 0, 1⟩, ⟨1, 0, 0, 0⟩⟩, ⟨0, 0, 0⟩,
    ⟨1, 0, 0, 0⟩⟩,
   ⟨"kidB", some ⟨"root", ⟨0, 0, 0⟩, ⟨0, 0, 1⟩, ⟨1, 0, 0, 0⟩⟩, ⟨0, 0, 0⟩,
    ⟨1, 0, 0, 0⟩⟩]

def familyConverted : List PsxBone :=
  [⟨"root", 0, 2, 0, ⟨0, 0, 0⟩, ⟨1, 0, 0, 0⟩⟩,
   ⟨"kidA", 0, 0, 0, ⟨0, 0, 1⟩, ⟨1, 0, 0, 0⟩⟩,
   ⟨"kidB", 0, 0, 0, ⟨0, 0, 1⟩, ⟨1, 0, 0, 0⟩⟩]

theorem convert_parent_linkage_witness :
    ((familyBones.map TBone.name).Nodup ∧
     convert_blender_bones_to_psx_bones familyBones "WORLD" Mat4.identity 1
       "X" "Z" = .ok familyConverted) ∧
    ((∀ (i : Nat) (b : TBone), familyBones[i]? = some b →
        parentLookup familyBones b = none →
        ∃ pb : PsxBone, familyConverted[i]? = some pb ∧
          pb.parent_index = 0) ∧
     (∀ (i : Nat) (bi : TBone), familyBones[i]? = some bi →
        ∃ pb : PsxBone, familyConverted[i]? = some pb ∧
          pb.children_count = familyBones.countP (fun b =>
            match b.parent with
            | some p => p.name == bi.name
            | none => false))) :=
  ⟨⟨by decide, by
      norm_num +decide [convert_blender_bones_to_psx_bones, convertGo,
        convertStep, parentLookup, locRot, armatureLocalMatrix,
        finalizeLocation, Mat4.apply, Mat4.scaleM, Quat.inverted, Quat.rotate,
        Quat.mul, Quat.mul_def, Quat.conjugated, Quat.normSq, Quat.one,
        Mat4.identity,
        familyBones, familyConverted, get_coordinate_system_transform,
        mkNewPsxBone, incChildrenCount, List.findIdx?_cons, List.findIdx?_nil,
        Vec3.add_def, Vec3.sub_def]⟩,
   convert_parent_linkage familyBones "WORLD" Mat4.identity 1 "X" "Z"
     familyConverted (by decide) (by
      norm_num +decide [convert_blender_bones_to_psx_bones, convertGo,
        convertStep, parentLookup, locRot, armatureLocalMatrix,
        finalizeLocation, Mat4.apply, Mat4.scaleM, Quat.inverted, Quat.rotate,
        Quat.mul, Quat.mul_def, Quat.conjugated, Quat.normSq, Quat.one,
        Mat4.identity,
        familyBones, familyConverted, get_coordinate_system_transform,
        mkNewPsxBone, incChildrenCount, List.findIdx?_cons, List.findIdx?_nil,
        Vec3.add_def, Vec3.sub_def])⟩

/-- C7 counterexample: an unrecognized `filter_mode` is not rejected — the
selector runs to completion on `"BOGUS"` and returns exactly the
bone-collections-mode result; and an unrecognized `export_space` raises no
error when the converted list contains no root bone (the transformer returns
successfully for export space `"BOGUS"`), so neither value is validated
before computation. -/
theorem config_validation_counterexample :
    get_export_bone_names [⟨"root", none, []⟩] "BOGUS" [-1] =
      some (.ok ["root"]) ∧
    get_export_bone_names [⟨"root", none, []⟩] "BOGUS" [-1] =
      get_export_bone_names [⟨"root", none, []⟩] "BONE_COLLECTIONS" [-1] ∧
    convert_blender_bones_to_psx_bones [soleChildBone] "BOGUS" Mat4.identity
      1 "X" "Z" = .ok [⟨"child", 0, 0, 0, ⟨0, 0, 1⟩, ⟨1, 0, 0, 0⟩⟩] := by
  refine ⟨rfl, rfl, ?_⟩
  norm_num +decide [convert_blender_bones_to_psx_bones, convertGo,
    convertStep, parentLookup, locRot, finalizeLocation, Mat4.apply,
    Mat4.scaleM, Quat.inverted, Quat.rotate, Quat.mul, Quat.conjugated,
    Quat.normSq, Mat4.identity, soleChildBone,
    get_coordinate_system_transform, mkNewPsxBone, List.findIdx?_cons,
    List.findIdx?_nil, Vec3.add_def, Vec3.sub_def]

/-- C7 amended: neither configuration value is validated up front. Any
`filter_mode` other than `"ALL"` makes the selector behave exactly as
`"BONE_COLLECTIONS"` mode; `export_space` is examined only inside the
root-bone branch of the transformer, so on a bone list whose every element
has a source parent the result is independent of `export_space` and no
configuration error is ever raised. -/
theorem config_validation_amended :
    (∀ (bones : List SBone) (sel : List Int) (mode : String), mode ≠ "ALL" →
      get_export_bone_names bones mode sel =
        get_export_bone_names bones "BONE_COLLECTIONS" sel) ∧
    (∀ (bones : List TBone) (es es2 : String) (w : Mat4) (s : ℚ)
        (f u : String),
      (∀ b ∈ bones, b.parent ≠ none) →
      convert_blender_bones_to_psx_bones bones es w s f u =
        convert_blender_bones_to_psx_bones bones es2 w s f u) := by
  constructor
  · intro bones sel mode hmode
    have hseed : ∀ b, isSeedBone mode sel b =
        isSeedBone "BONE_COLLECTIONS" sel b := by
      intro b
      unfold isSeedBone
      rw [beq_eq_false_iff_ne.mpr hmode,
        show ("BONE_COLLECTIONS" == "ALL") = false from by decide]
    have haux : ∀ (l : List SBone) (k : Nat),
        seedIdxAux mode sel k l = seedIdxAux "BONE_COLLECTIONS" sel k l := by
      intro l
      induction l with
      | nil => intro k; rfl
      | cons b rest ih => intro k; simp only [seedIdxAux, hseed b, ih]
    unfold get_export_bone_names seedStack seedIndices
    rw [haux bones 0]
  · intro bones es es2 w s f u hall
    have hlr : ∀ b : TBone, b.parent ≠ none → ∀ cst,
        locRot cst es w b = locRot cst es2 w b := by
      intro b hbp cst
      cases hb : b.parent with
      | none => exact absurd hb hbp
      | some p => simp [locRot, hb]
    have hstepeq : ∀ (acc : List PsxBone) (b : TBone), b.parent ≠ none →
        ∀ cst, convertStep bones cst es w s acc b =
          convertStep bones cst es2 w s acc b := by
      intro acc b hbp cst
      unfold convertStep
      rw [hlr b hbp cst]
    have hgo : ∀ (rest : List TBone), (∀ b ∈ rest, b.parent ≠ none) →
        ∀ (acc : List PsxBone) (cst : Mat4),
          convertGo bones cst es w s rest acc =
            convertGo bones cst es2 w s rest acc := by
      intro rest
      induction rest with
      | nil => intro _ acc cst; rfl
      | cons b r ih =>
        intro hr acc cst
        simp only [convertGo]
        rw [hstepeq acc b (hr b (List.mem_cons_self _ _)) cst]
        cases h2 : convertStep bones cst es2 w s acc b with
        | error e => rfl
        | ok acc2 =>
          exact ih (fun x hx => hr x (List.mem_cons_of_mem _ hx)) acc2 cst
    unfold convert_blender_bones_to_psx_bones
    exact hgo bones hall [] _

theorem config_validation_amended_witness :
    ("BOGUS" ≠ "ALL" ∧
      get_export_bone_names [⟨"root", none, []⟩] "BOGUS" [-1] =
        get_export_bone_names [⟨"root", none, []⟩] "BONE_COLLECTIONS" [-1]) ∧
    ((∀ b ∈ [soleChildBone], b.parent ≠ none) ∧
      convert_blender_bones_to_psx_bones [soleChildBone] "BOGUS"
        Mat4.identity 1 "X" "Z" =
      convert_blender_bones_to_psx_bones [soleChildBone] "WORLD"
        Mat4.identity 1 "X" "Z") :=
  ⟨⟨by decide, config_validation_amended.1 [⟨"root", none, []⟩] [-1] "BOGUS"
      (by decide)⟩,
   ⟨by decide, config_validation_amended.2 [soleChildBone] "BOGUS" "WORLD"
      Mat4.identity 1 "X" "Z" (by decide)⟩⟩

end PskPsa
